import Mathlib

/-!
Verification of the MeetEase artifact-cache layer (src/Main.py).

This file gives a shallow embedding of the cache-relevant code of the
repository — the slugifier `_slug`, the session-id resolver `_session_id`,
the artifact store `_write_text`/`_read_text`/`_write_json`/`_read_json`,
and the settings digest `settings_hash` — and proves the specification's
claims about them.

Modelling conventions:
* Python strings are modelled as Lean `String`/`List Char`.  Character
  classes (`\w` of `re`, `str.lower`, `str.strip`) are modelled at their
  ASCII meaning; the application's titles, artifact names and settings
  keys are ASCII.
* The filesystem is a flat association list from paths to file contents
  (a written file shadows an earlier write to the same path).
* JSON documents are modelled by the inductive `JVal`; `json.dump`
  (with its `ensure_ascii=False, indent=2` arguments as used by
  `_write_json`) and `json.dumps(d, sort_keys=True)` (as used by
  `settings_hash`) are modelled by a serializer parameterized over the
  whitespace layout, and `json.load` by an executable parser.  JSON
  numbers are modelled as integers (floating point is out of scope).
* `hashlib.sha256` is an external primitive; digests are parameterized
  over the hash function `String → String` applied to the canonical
  serialization, exactly as the source composes them.
-/

namespace MeetEase

/-! ## Character classes (ASCII models of the Python classes) -/

/-- Python `str.strip()` whitespace (ASCII part). -/
def pws (c : Char) : Bool :=
  c == ' ' || c == '\t' || c == '\n' || c == '\r' || c == '\x0b' || c == '\x0c'

/-- Python regex `\w` (ASCII part): letters, digits and underscore. -/
def isWordChar (c : Char) : Bool :=
  c.isAlphanum || c == '_'

/-- The class `[^\w\-]` of the first substitution in `_slug`:
neither a word character nor a hyphen. -/
def nonWordNonHyphen (c : Char) : Bool :=
  !isWordChar c && !(c == '-')

/-- The class `[^\w]` used by the specification's description of
`slugify` ("runs of non-word characters"); a hyphen is not a word
character. -/
def nonWord (c : Char) : Bool :=
  !isWordChar c

/-- A hyphen, the class of the second substitution `-+` in `_slug`. -/
def isHyphen (c : Char) : Bool :=
  c == '-'

/-! ## Generic string rewriting used by `_slug`

`collapseRuns p l` replaces every maximal nonempty run of characters
satisfying `p` by a single `'-'` and leaves all other characters
unchanged: this is `re.sub(<class p>+, "-", l)`. -/

def collapseRuns (p : Char → Bool) : List Char → List Char
  | [] => []
  | [c] => if p c then ['-'] else [c]
  | c :: d :: rest =>
    if p c then
      if p d then collapseRuns p (d :: rest)
      else '-' :: collapseRuns p (d :: rest)
    else c :: collapseRuns p (d :: rest)

/-- `str.strip(<class p>)`: remove characters satisfying `p` from both
ends. -/
def stripBy (p : Char → Bool) (l : List Char) : List Char :=
  ((l.dropWhile p).reverse.dropWhile p).reverse

/-- ASCII `str.lower`. -/
def lowerList (l : List Char) : List Char :=
  l.map Char.toLower

/-! ## `_slug` (src/Main.py lines 81–83)

```python
def _slug(s: str) -> str:
    s = re.sub(r"[^\w\-]+", "-", s.strip().lower()).strip("-")
    return re.sub(r"-+", "-", s) or "session"
```
-/

def slugList (l : List Char) : List Char :=
  let t1 := lowerList (stripBy pws l)
  let t2 := collapseRuns nonWordNonHyphen t1
  let t3 := stripBy isHyphen t2
  collapseRuns isHyphen t3

def _slug (s : String) : String :=
  let r := slugList s.data
  if r.isEmpty then "session" else String.mk r

/-- The specification's description of `slugify`: "lowercase, trim,
collapse runs of non-word characters into a single hyphen, strip
leading/trailing hyphens; empty result maps to a fixed default token
(`"session"`)". -/
def slugifySpec (s : String) : String :=
  let u1 := stripBy pws (lowerList s.data)
  let u2 := collapseRuns nonWord u1
  let u3 := stripBy isHyphen u2
  if u3.isEmpty then "session" else String.mk u3

/-! ## Dates and `_session_id` (src/Main.py lines 85–87)

```python
def _session_id(title: str, mdate: date, doc_hash: str) -> str:
    base = f"{_slug(title)}-{mdate.isoformat()}-{doc_hash[:8]}"
    return base
```
-/

/-- A calendar date, as passed to `_session_id`. -/
structure PyDate where
  year : Nat
  month : Nat
  day : Nat
deriving DecidableEq, Repr

/-- Decimal digits of a natural number, most significant first
(fuel-based so that it evaluates by kernel reduction; the fuel `n + 1`
always suffices). -/
def natCharsAux : Nat → Nat → List Char
  | 0, _ => []
  | fu + 1, n =>
    if n < 10 then [Char.ofNat (48 + n)]
    else natCharsAux fu (n / 10) ++ [Char.ofNat (48 + n % 10)]

def natChars (n : Nat) : List Char :=
  natCharsAux (n + 1) n

/-- Zero-pad a decimal representation to `w` digits, as
`date.isoformat` does for the year (4), month (2) and day (2). -/
def padNat (w n : Nat) : List Char :=
  List.replicate (w - (natChars n).length) '0' ++ natChars n

/-- Python `date.isoformat()`: `YYYY-MM-DD`. -/
def PyDate.isoformat (d : PyDate) : String :=
  String.mk (padNat 4 d.year ++ '-' :: padNat 2 d.month ++ '-' :: padNat 2 d.day)

def _session_id (title : String) (mdate : PyDate) (doc_hash : String) : String :=
  _slug title ++ "-" ++ mdate.isoformat ++ "-" ++ (doc_hash.take 8)

/-- The specification's description of `resolve_session_id`:
`slugify(title) + "-" + isoDate(meeting_date) + "-" + content_hash[:8]`,
with `slugify` the specification's own slugifier. -/
def resolve_session_id_spec (title : String) (mdate : PyDate) (content_hash : String) : String :=
  slugifySpec title ++ "-" ++ mdate.isoformat ++ "-" ++ (content_hash.take 8)

/-! ## The filesystem model and text artifacts (src/Main.py lines 94–102)

```python
def _write_text(path: str, text: str):
    os.makedirs(os.path.dirname(path), exist_ok=True)
    with open(path, "w", encoding="utf-8") as f:
        f.write(text or "")

def _read_text(path: str) -> str:
    if not os.path.isfile(path): return ""
    with open(path, "r", encoding="utf-8") as f:
        return f.read()
```

The filesystem is a flat map from paths to file contents; writing
prepends (shadowing any earlier entry for the path).  Directory
creation (`os.makedirs`) has no observable effect in this model.
`_write_text` takes `Option String` so that Python's `None` argument —
coerced by `text or ""` — is representable. -/

def FS := List (String × String)

def FS.lookup (fs : FS) (path : String) : Option String :=
  List.lookup path fs

def FS.write (fs : FS) (path content : String) : FS :=
  (path, content) :: fs

def _write_text (fs : FS) (path : String) (text : Option String) : FS :=
  fs.write path (match text with | none => "" | some t => t)

def _read_text (fs : FS) (path : String) : String :=
  match fs.lookup path with
  | none => ""
  | some c => c

/-! ## Basic facts about `collapseRuns` and the strips -/

theorem collapseRuns_cons_neg (p : Char → Bool) (c : Char) (s : List Char)
    (hc : p c = false) : collapseRuns p (c :: s) = c :: collapseRuns p s := by
  cases s with
  | nil => simp [collapseRuns, hc]
  | cons d rest => simp [collapseRuns, hc]

theorem collapseRuns_cons_cons_pos_pos (p : Char → Bool) (c d : Char) (s : List Char)
    (hc : p c = true) (hd : p d = true) :
    collapseRuns p (c :: d :: s) = collapseRuns p (d :: s) := by
  simp [collapseRuns, hc, hd]

theorem collapseRuns_cons_cons_pos_neg (p : Char → Bool) (c d : Char) (s : List Char)
    (hc : p c = true) (hd : p d = false) :
    collapseRuns p (c :: d :: s) = '-' :: collapseRuns p (d :: s) := by
  simp [collapseRuns, hc, hd]

theorem collapseRuns_singleton_pos (p : Char → Bool) (c : Char) (hc : p c = true) :
    collapseRuns p [c] = ['-'] := by
  simp [collapseRuns, hc]

/-! ## Character-class case facts -/

theorem word_classes {c : Char} (hw : isWordChar c = true) :
    nonWordNonHyphen c = false ∧ nonWord c = false ∧ isHyphen c = false := by
  refine ⟨by simp [nonWordNonHyphen, hw], by simp [nonWord, hw], ?_⟩
  unfold isHyphen
  cases hb : (c == '-') with
  | false => rfl
  | true =>
    have hc : c = '-' := eq_of_beq hb
    subst hc
    exact absurd hw (by decide)

theorem other_classes {c : Char} (hw : isWordChar c = false) (hh : ¬ c = '-') :
    nonWordNonHyphen c = true ∧ nonWord c = true ∧ isHyphen c = false := by
  refine ⟨?_, by simp [nonWord, hw], by simp [isHyphen, hh]⟩
  simp [nonWordNonHyphen, hw, hh]

/-- Core composition lemma behind `_slug = slugify`: substituting
`[^\w\-]+ ↦ -` and then `-+ ↦ -` is the same as substituting
`[^\w]+ ↦ -` in one pass.  The second conjunct strengthens the
induction for inputs beginning inside a hyphen run. -/
theorem collapse_compose_aux :
    ∀ (n : Nat) (t : List Char), t.length ≤ n →
      collapseRuns isHyphen (collapseRuns nonWordNonHyphen t) = collapseRuns nonWord t ∧
      collapseRuns isHyphen ('-' :: collapseRuns nonWordNonHyphen t) =
        collapseRuns nonWord ('-' :: t) := by
  intro n
  induction n with
  | zero =>
    intro t ht
    have ht0 : t = [] := List.length_eq_zero.mp (Nat.le_zero.mp ht)
    subst ht0
    exact ⟨by decide, by decide⟩
  | succ n ih =>
    intro t ht
    cases t with
    | nil => exact ⟨by decide, by decide⟩
    | cons c r =>
      have hr : r.length ≤ n := by simp [List.length_cons] at ht; omega
      by_cases hh : c = '-'
      · subst hh
        obtain ⟨ihP, ihQ⟩ := ih r hr
        have h1 : nonWordNonHyphen '-' = false := by decide
        constructor
        · rw [collapseRuns_cons_neg _ _ _ h1]
          exact ihQ
        · rw [collapseRuns_cons_neg _ _ _ h1,
              collapseRuns_cons_cons_pos_pos isHyphen '-' '-' _ (by decide) (by decide),
              collapseRuns_cons_cons_pos_pos nonWord '-' '-' _ (by decide) (by decide)]
          exact ihQ
      · by_cases hw : isWordChar c = true
        · obtain ⟨h1, h2, h3⟩ := word_classes hw
          obtain ⟨ihP, ihQ⟩ := ih r hr
          constructor
          · rw [collapseRuns_cons_neg _ _ _ h1, collapseRuns_cons_neg _ _ _ h3,
                collapseRuns_cons_neg _ _ _ h2, ihP]
          · rw [collapseRuns_cons_neg _ _ _ h1,
                collapseRuns_cons_cons_pos_neg isHyphen '-' c _ (by decide) h3,
                collapseRuns_cons_cons_pos_neg nonWord '-' c _ (by decide) h2,
                collapseRuns_cons_neg _ _ _ h3, collapseRuns_cons_neg _ _ _ h2, ihP]
        · have hwf : isWordChar c = false := by
            cases hcw : isWordChar c with
            | false => rfl
            | true => exact absurd hcw hw
          obtain ⟨h1, h2, h3⟩ := other_classes hwf hh
          cases r with
          | nil =>
            constructor
            · rw [collapseRuns_singleton_pos _ _ h1, collapseRuns_singleton_pos _ _ (by decide),
                  collapseRuns_singleton_pos _ _ h2]
            · rw [collapseRuns_singleton_pos _ _ h1,
                  collapseRuns_cons_cons_pos_pos isHyphen '-' '-' [] (by decide) (by decide),
                  collapseRuns_cons_cons_pos_pos nonWord '-' c [] (by decide) h2,
                  collapseRuns_singleton_pos _ _ (by decide), collapseRuns_singleton_pos _ _ h2]
          | cons y r' =>
            have hr'' : r'.length ≤ n := by simp [List.length_cons] at hr ⊢; omega
            by_cases hhy : y = '-'
            · subst hhy
              obtain ⟨ihP', ihQ'⟩ := ih r' hr''
              constructor
              · rw [collapseRuns_cons_cons_pos_neg nonWordNonHyphen c '-' r' h1 (by decide),
                    collapseRuns_cons_neg nonWordNonHyphen '-' r' (by decide),
                    collapseRuns_cons_cons_pos_pos isHyphen '-' '-' _ (by decide) (by decide),
                    collapseRuns_cons_cons_pos_pos nonWord c '-' r' h2 (by decide)]
                exact ihQ'
              · rw [collapseRuns_cons_cons_pos_neg nonWordNonHyphen c '-' r' h1 (by decide),
                    collapseRuns_cons_neg nonWordNonHyphen '-' r' (by decide),
                    collapseRuns_cons_cons_pos_pos isHyphen '-' '-' _ (by decide) (by decide),
                    collapseRuns_cons_cons_pos_pos isHyphen '-' '-' _ (by decide) (by decide),
                    collapseRuns_cons_cons_pos_pos nonWord '-' c _ (by decide) h2,
                    collapseRuns_cons_cons_pos_pos nonWord c '-' r' h2 (by decide)]
                exact ihQ'
            · by_cases hwy : isWordChar y = true
              · obtain ⟨h1y, h2y, h3y⟩ := word_classes hwy
                obtain ⟨ihP', ihQ'⟩ := ih r' hr''
                obtain ⟨ihPr, ihQr⟩ := ih (y :: r') hr
                constructor
                · rw [collapseRuns_cons_cons_pos_neg nonWordNonHyphen c y r' h1 h1y,
                      collapseRuns_cons_neg nonWordNonHyphen y r' h1y,
                      collapseRuns_cons_cons_pos_neg isHyphen '-' y _ (by decide) h3y,
                      collapseRuns_cons_neg isHyphen y _ h3y,
                      collapseRuns_cons_cons_pos_neg nonWord c y r' h2 h2y,
                      collapseRuns_cons_neg nonWord y r' h2y, ihP']
                · rw [collapseRuns_cons_cons_pos_neg nonWordNonHyphen c y r' h1 h1y,
                      collapseRuns_cons_cons_pos_pos isHyphen '-' '-' _ (by decide) (by decide),
                      collapseRuns_cons_cons_pos_pos nonWord '-' c _ (by decide) h2, ihQr,
                      collapseRuns_cons_cons_pos_neg nonWord '-' y r' (by decide) h2y,
                      collapseRuns_cons_cons_pos_neg nonWord c y r' h2 h2y]
              · have hwyf : isWordChar y = false := by
                  cases hcw : isWordChar y with
                  | false => rfl
                  | true => exact absurd hcw hwy
                obtain ⟨h1y, h2y, h3y⟩ := other_classes hwyf hhy
                obtain ⟨ihPr, ihQr⟩ := ih (y :: r') hr
                constructor
                · rw [collapseRuns_cons_cons_pos_pos nonWordNonHyphen c y r' h1 h1y,
                      collapseRuns_cons_cons_pos_pos nonWord c y r' h2 h2y]
                  exact ihPr
                · rw [collapseRuns_cons_cons_pos_pos nonWordNonHyphen c y r' h1 h1y,
                      collapseRuns_cons_cons_pos_pos nonWord '-' c _ (by decide) h2,
                      collapseRuns_cons_cons_pos_pos nonWord c y r' h2 h2y, ihQr,
                      collapseRuns_cons_cons_pos_pos nonWord '-' y r' (by decide) h2y]

/-! ## Commuting the hyphen collapse with the hyphen strip -/

theorem dropWhile_cons_pos (p : Char → Bool) (c : Char) (w : List Char) (h : p c = true) :
    (c :: w).dropWhile p = w.dropWhile p := by
  simp [List.dropWhile_cons, h]

theorem dropWhile_cons_neg (p : Char → Bool) (c : Char) (w : List Char) (h : p c = false) :
    (c :: w).dropWhile p = c :: w := by
  simp [List.dropWhile_cons, h]

theorem collapseH_dropWhile (w : List Char) :
    collapseRuns isHyphen (w.dropWhile isHyphen) =
      (collapseRuns isHyphen w).dropWhile isHyphen := by
  induction w with
  | nil => rfl
  | cons c w' ih =>
    by_cases hc : c = '-'
    · subst hc
      rw [dropWhile_cons_pos isHyphen '-' w' (by decide)]
      cases w' with
      | nil => decide
      | cons d w'' =>
        by_cases hd : d = '-'
        · subst hd
          rw [collapseRuns_cons_cons_pos_pos isHyphen '-' '-' w'' (by decide) (by decide)]
          exact ih
        · have hd3 : isHyphen d = false := by simp [isHyphen, hd]
          rw [dropWhile_cons_neg isHyphen d w'' hd3,
              collapseRuns_cons_neg isHyphen d w'' hd3,
              collapseRuns_cons_cons_pos_neg isHyphen '-' d w'' (by decide) hd3,
              collapseRuns_cons_neg isHyphen d w'' hd3,
              dropWhile_cons_pos isHyphen '-' _ (by decide),
              dropWhile_cons_neg isHyphen d _ hd3]
    · have hc3 : isHyphen c = false := by simp [isHyphen, hc]
      rw [dropWhile_cons_neg isHyphen c w' hc3, collapseRuns_cons_neg isHyphen c w' hc3,
          dropWhile_cons_neg isHyphen c _ hc3]

theorem collapseH_append_other (c : Char) (h3 : isHyphen c = false) :
    ∀ w : List Char, collapseRuns isHyphen (w ++ [c]) = collapseRuns isHyphen w ++ [c] := by
  intro w
  induction w with
  | nil => simp [collapseRuns, h3]
  | cons d w' ih =>
    cases w' with
    | nil =>
      by_cases hd : d = '-'
      · subst hd
        simp only [List.cons_append, List.nil_append]
        rw [collapseRuns_cons_cons_pos_neg isHyphen '-' c [] (by decide) h3,
            collapseRuns_singleton_pos isHyphen '-' (by decide)]
        simp [collapseRuns, h3]
      · have hd3 : isHyphen d = false := by simp [isHyphen, hd]
        simp [collapseRuns, hd3, h3]
    | cons e w'' =>
      simp only [List.cons_append] at ih ⊢
      by_cases hd : d = '-'
      · subst hd
        by_cases he : e = '-'
        · subst he
          rw [collapseRuns_cons_cons_pos_pos isHyphen '-' '-' (w'' ++ [c]) (by decide) (by decide),
              collapseRuns_cons_cons_pos_pos isHyphen '-' '-' w'' (by decide) (by decide)]
          exact ih
        · have he3 : isHyphen e = false := by simp [isHyphen, he]
          rw [collapseRuns_cons_cons_pos_neg isHyphen '-' e (w'' ++ [c]) (by decide) he3,
              collapseRuns_cons_cons_pos_neg isHyphen '-' e w'' (by decide) he3, ih,
              List.cons_append]
      · have hd3 : isHyphen d = false := by simp [isHyphen, hd]
        rw [collapseRuns_cons_neg isHyphen d (e :: (w'' ++ [c])) hd3,
            collapseRuns_cons_neg isHyphen d (e :: w'') hd3, ih, List.cons_append]

theorem collapseH_append_hyphen :
    ∀ w : List Char, collapseRuns isHyphen (w ++ ['-']) =
      if w.getLast? = some '-' then collapseRuns isHyphen w
      else collapseRuns isHyphen w ++ ['-'] := by
  intro w
  induction w with
  | nil => decide
  | cons d w' ih =>
    cases w' with
    | nil =>
      by_cases hd : d = '-'
      · subst hd
        decide
      · have hd3 : isHyphen d = false := by simp [isHyphen, hd]
        rw [if_neg (by simp [hd])]
        simp [collapseRuns, hd3]
    | cons e w'' =>
      rw [List.getLast?_cons_cons]
      simp only [List.cons_append] at ih ⊢
      by_cases hco : (e :: w'').getLast? = some '-'
      · rw [if_pos hco] at ih ⊢
        by_cases hd : d = '-'
        · subst hd
          by_cases he : e = '-'
          · subst he
            rw [collapseRuns_cons_cons_pos_pos isHyphen '-' '-' (w'' ++ ['-']) (by decide) (by decide),
                collapseRuns_cons_cons_pos_pos isHyphen '-' '-' w'' (by decide) (by decide)]
            exact ih
          · have he3 : isHyphen e = false := by simp [isHyphen, he]
            rw [collapseRuns_cons_cons_pos_neg isHyphen '-' e (w'' ++ ['-']) (by decide) he3,
                collapseRuns_cons_cons_pos_neg isHyphen '-' e w'' (by decide) he3, ih]
        · have hd3 : isHyphen d = false := by simp [isHyphen, hd]
          rw [collapseRuns_cons_neg isHyphen d (e :: (w'' ++ ['-'])) hd3,
              collapseRuns_cons_neg isHyphen d (e :: w'') hd3, ih]
      · rw [if_neg hco] at ih ⊢
        by_cases hd : d = '-'
        · subst hd
          by_cases he : e = '-'
          · subst he
            rw [collapseRuns_cons_cons_pos_pos isHyphen '-' '-' (w'' ++ ['-']) (by decide) (by decide),
                collapseRuns_cons_cons_pos_pos isHyphen '-' '-' w'' (by decide) (by decide)]
            exact ih
          · have he3 : isHyphen e = false := by simp [isHyphen, he]
            rw [collapseRuns_cons_cons_pos_neg isHyphen '-' e (w'' ++ ['-']) (by decide) he3,
                collapseRuns_cons_cons_pos_neg isHyphen '-' e w'' (by decide) he3, ih,
                List.cons_append]
        · have hd3 : isHyphen d = false := by simp [isHyphen, hd]
          rw [collapseRuns_cons_neg isHyphen d (e :: (w'' ++ ['-'])) hd3,
              collapseRuns_cons_neg isHyphen d (e :: w'') hd3, ih, List.cons_append]

theorem collapseH_reverse : ∀ w : List Char,
    collapseRuns isHyphen w.reverse = (collapseRuns isHyphen w).reverse := by
  intro w
  induction w with
  | nil => rfl
  | cons c w' ih =>
    rw [List.reverse_cons]
    by_cases hc : c = '-'
    · subst hc
      rw [collapseH_append_hyphen w'.reverse, List.getLast?_reverse]
      cases w' with
      | nil => decide
      | cons d w'' =>
        by_cases hd : d = '-'
        · subst hd
          rw [if_pos (by simp)]
          rw [ih, collapseRuns_cons_cons_pos_pos isHyphen '-' '-' w'' (by decide) (by decide)]
        · have hd3 : isHyphen d = false := by simp [isHyphen, hd]
          rw [if_neg (by simp [hd])]
          rw [ih, collapseRuns_cons_cons_pos_neg isHyphen '-' d w'' (by decide) hd3,
              List.reverse_cons]
    · have hc3 : isHyphen c = false := by simp [isHyphen, hc]
      rw [collapseH_append_other c hc3 w'.reverse, ih,
          collapseRuns_cons_neg isHyphen c w' hc3, List.reverse_cons]

/-- `re.sub(r"-+", "-", ·)` commutes with `str.strip("-")`. -/
theorem collapseH_stripBy (w : List Char) :
    collapseRuns isHyphen (stripBy isHyphen w) = stripBy isHyphen (collapseRuns isHyphen w) := by
  unfold stripBy
  rw [collapseH_reverse, collapseH_dropWhile, collapseH_reverse, collapseH_dropWhile]

/-! ## Facts about `Char.toLower` and the whitespace class -/

theorem charOfNat_toNat (n : Nat) (h : n < 55296) : (Char.ofNat n).toNat = n := by
  have hv : Nat.isValidChar n := Or.inl h
  simp [Char.ofNat, hv, Char.ofNatAux, Char.toNat, UInt32.toNat, UInt32.ofNatCore]

theorem pws_le32 (x : Char) (hp : pws x = true) : x.toNat ≤ 32 := by
  simp only [pws, Bool.or_eq_true, beq_iff_eq] at hp
  rcases hp with ((((h | h) | h) | h) | h) | h <;> subst h <;> decide

theorem isUpper_iff (c : Char) : c.isUpper = true ↔ 65 ≤ c.toNat ∧ c.toNat ≤ 90 := by
  simp only [Char.isUpper, Bool.and_eq_true, decide_eq_true_eq]
  exact ⟨fun h => ⟨h.1, h.2⟩, fun h => ⟨h.1, h.2⟩⟩

theorem toLower_eq_self_of_nonword (c : Char) (h : isWordChar c = false) :
    Char.toLower c = c := by
  simp only [isWordChar, Bool.or_eq_false_iff] at h
  have hu : c.isUpper = false := by
    have h2 := h.1
    simp only [Char.isAlphanum, Bool.or_eq_false_iff, Char.isAlpha] at h2
    exact h2.1.1
  have hnot : ¬(c.toNat ≥ 65 ∧ c.toNat ≤ 90) := by
    intro hc
    rw [(isUpper_iff c).mpr ⟨hc.1, hc.2⟩] at hu
    exact absurd hu (by decide)
  simp only [Char.toLower]
  rw [if_neg hnot]

theorem pws_toLower (c : Char) : pws (Char.toLower c) = pws c := by
  simp only [Char.toLower]
  by_cases h : c.toNat ≥ 65 ∧ c.toNat ≤ 90
  · rw [if_pos h]
    have htn : (Char.ofNat (c.toNat + 32)).toNat = c.toNat + 32 :=
      charOfNat_toNat _ (by omega)
    have l1 : pws (Char.ofNat (c.toNat + 32)) = false := by
      cases hp : pws (Char.ofNat (c.toNat + 32)) with
      | false => rfl
      | true => have h32 := pws_le32 _ hp; omega
    have l2 : pws c = false := by
      cases hp : pws c with
      | false => rfl
      | true => have h32 := pws_le32 _ hp; omega
    rw [l1, l2]
  · rw [if_neg h]

/-- Python lowercases before the strip in the spec's description and
after it in the code; the two orders agree because lowercasing
preserves whitespace-ness. -/
theorem lowerList_stripBy_pws (l : List Char) :
    lowerList (stripBy pws l) = stripBy pws (lowerList l) := by
  have hfun : (pws ∘ Char.toLower) = pws := funext pws_toLower
  unfold stripBy lowerList
  rw [List.dropWhile_map, hfun, ← List.map_reverse, List.dropWhile_map, hfun,
      ← List.map_reverse]

/-! ## `_slug` agrees with the specification's `slugify` -/

theorem slug_eq_slugifySpec (s : String) : _slug s = slugifySpec s := by
  simp only [_slug, slugifySpec, slugList]
  rw [lowerList_stripBy_pws, collapseH_stripBy,
      (collapse_compose_aux (stripBy pws (lowerList s.data)).length
        (stripBy pws (lowerList s.data)) le_rfl).1]

theorem collapseRuns_all_pos (p : Char → Bool) :
    ∀ l : List Char, l ≠ [] → (∀ c ∈ l, p c = true) → collapseRuns p l = ['-'] := by
  intro l
  induction l with
  | nil => intro h _; exact absurd rfl h
  | cons c r ih =>
    intro _ hall
    have hc : p c = true := hall c (List.mem_cons_self c r)
    cases r with
    | nil => exact collapseRuns_singleton_pos p c hc
    | cons d r' =>
      have hd : p d = true := hall d (by simp)
      rw [collapseRuns_cons_cons_pos_pos p c d r' hc hd]
      exact ih (by simp) (fun x hx => hall x (List.mem_cons_of_mem c hx))

theorem stripBy_subset (p : Char → Bool) (l : List Char) : stripBy p l ⊆ l := by
  intro x hx
  unfold stripBy at hx
  rw [List.mem_reverse] at hx
  have h1 := (List.dropWhile_sublist p).subset hx
  rw [List.mem_reverse] at h1
  exact (List.dropWhile_sublist p).subset h1

/-- Any all-punctuation (no word character) title — the empty title
included — slugifies to the default token. -/
theorem slug_of_all_nonword (s : String) (h : ∀ c ∈ s.data, isWordChar c = false) :
    _slug s = "session" := by
  rw [slug_eq_slugifySpec]
  simp only [slugifySpec]
  have hall : ∀ c ∈ stripBy pws (lowerList s.data), nonWord c = true := by
    intro c hc
    have hc2 : c ∈ lowerList s.data := stripBy_subset pws (lowerList s.data) hc
    simp only [lowerList, List.mem_map] at hc2
    obtain ⟨c0, hc0, he⟩ := hc2
    have h0 : isWordChar c0 = false := h c0 hc0
    rw [← he, toLower_eq_self_of_nonword c0 h0]
    simp [nonWord, h0]
  cases hu : stripBy pws (lowerList s.data) with
  | nil => rfl
  | cons a t =>
    rw [hu] at hall
    rw [collapseRuns_all_pos nonWord (a :: t) (List.cons_ne_nil a t) hall]
    rfl

/-! ## JSON documents

`JVal` models the JSON-serializable values handled by `_write_json`,
`_read_json` and `settings_hash`.  JSON numbers are modelled as
integers (the cache records of the application carry strings, integers,
booleans, nulls, arrays and objects; floating point is out of scope). -/

inductive JVal where
  | jstr : String → JVal
  | jnum : Int → JVal
  | jbool : Bool → JVal
  | jnull : JVal
  | jarr : List JVal → JVal
  | jobj : List (String × JVal) → JVal

/-- Structural size of a JSON value, used as parser fuel. -/
def jsize : JVal → Nat
  | .jstr _ => 1
  | .jnum _ => 1
  | .jbool _ => 1
  | .jnull => 1
  | .jarr vs => 1 + isize vs
  | .jobj es => 1 + msize es
where
  isize : List JVal → Nat
    | [] => 0
    | v :: vs => 1 + jsize v + isize vs
  msize : List (String × JVal) → Nat
    | [] => 0
    | e :: es => 1 + jsize e.2 + msize es

/-! ### Serialization (`json.dump` / `json.dumps`)

The serializer is parameterized over the whitespace layout so that the
two call sites of the source — `json.dump(obj, f, ensure_ascii=False,
indent=2)` in `_write_json` and `json.dumps(d, sort_keys=True)` in
`settings_hash` — are instances of one definition. -/

/-- JSON string-literal escaping as `json.dumps` emits it for the
characters the application writes (quote, backslash and the common
control characters; other characters are written verbatim, as
`ensure_ascii=False` does for ASCII and raw text). -/
def escChar (c : Char) : List Char :=
  if c = '"' then ['\\', '"']
  else if c = '\\' then ['\\', '\\']
  else if c = '\n' then ['\\', 'n']
  else if c = '\t' then ['\\', 't']
  else if c = '\r' then ['\\', 'r']
  else [c]

def escList : List Char → List Char
  | [] => []
  | c :: r => escChar c ++ escList r

/-- A JSON string literal: `"` + escaped body + `"`. -/
def dumpStr (s : String) : List Char :=
  '"' :: escList s.data ++ ['"']

/-- Python `str(int)`. -/
def intChars (i : Int) : List Char :=
  if i < 0 then '-' :: natChars i.natAbs else natChars i.natAbs

/-- The whitespace emitted around JSON punctuation, as a function of
the indentation level where relevant. -/
structure Layout where
  afterOpen : Nat → List Char
  afterComma : Nat → List Char
  afterColon : List Char
  beforeClose : Nat → List Char

/-- `json.dumps` without `indent`: separators `", "` and `": "`. -/
def compactLayout : Layout :=
  ⟨fun _ => [], fun _ => [' '], [' '], fun _ => []⟩

/-- `json.dump(..., indent=2)`: a newline plus `n` spaces before each
element at nesting depth `n / 2`. -/
def indentLayout : Layout :=
  ⟨fun n => '\n' :: List.replicate n ' ', fun n => '\n' :: List.replicate n ' ',
   [' '], fun n => '\n' :: List.replicate n ' '⟩

/-- Serialize a JSON value at indentation level `lvl` (children are at
`lvl + 2`, matching `indent=2`).  Empty containers print as `{}`/`[]`,
as Python does. -/
def dumpVal (L : Layout) : Nat → JVal → List Char
  | _, .jstr s => dumpStr s
  | _, .jnum i => intChars i
  | _, .jbool b => if b then ['t', 'r', 'u', 'e'] else ['f', 'a', 'l', 's', 'e']
  | _, .jnull => ['n', 'u', 'l', 'l']
  | _, .jarr [] => ['[', ']']
  | lvl, .jarr (v :: vs) =>
    '[' :: L.afterOpen (lvl + 2) ++ dumpVal L (lvl + 2) v ++
      dumpItems L (lvl + 2) vs ++ L.beforeClose lvl ++ [']']
  | _, .jobj [] => ['{', '}']
  | lvl, .jobj (e :: es) =>
    '{' :: L.afterOpen (lvl + 2) ++ dumpStr e.1 ++ ':' :: L.afterColon ++
      dumpVal L (lvl + 2) e.2 ++ dumpMembers L (lvl + 2) es ++ L.beforeClose lvl ++ ['}']
where
  dumpItems (L : Layout) : Nat → List JVal → List Char
    | _, [] => []
    | lvl, v :: vs => ',' :: L.afterComma lvl ++ dumpVal L lvl v ++ dumpItems L lvl vs
  dumpMembers (L : Layout) : Nat → List (String × JVal) → List Char
    | _, [] => []
    | lvl, e :: es =>
      ',' :: L.afterComma lvl ++ dumpStr e.1 ++ ':' :: L.afterColon ++
        dumpVal L lvl e.2 ++ dumpMembers L lvl es

/-! ### Parsing (`json.load`)

An executable recursive-descent parser on `List Char`.  Recursion is on
explicit fuel so that every definition evaluates by kernel reduction;
`parseVal` hands the member/item loops the value parser for the next
smaller fuel, which keeps the definitions non-mutual. -/

/-- JSON whitespace. -/
def jws (c : Char) : Bool :=
  c == ' ' || c == '\n' || c == '\t' || c == '\r'

def unescChar (c : Char) : Option Char :=
  if c = '"' then some '"'
  else if c = '\\' then some '\\'
  else if c = '/' then some '/'
  else if c = 'n' then some '\n'
  else if c = 't' then some '\t'
  else if c = 'r' then some '\r'
  else if c = 'b' then some '\x08'
  else if c = 'f' then some '\x0c'
  else none

/-- Parse the body of a string literal after the opening quote,
returning the decoded characters and the input after the closing
quote. -/
def parseStrBody : List Char → Option (List Char × List Char)
  | [] => none
  | c :: rest =>
    if c = '"' then some ([], rest)
    else if c = '\\' then
      match rest with
      | [] => none
      | e :: rest2 =>
        match unescChar e with
        | none => none
        | some d =>
          match parseStrBody rest2 with
          | none => none
          | some (l, r) => some (d :: l, r)
    else
      match parseStrBody rest with
      | none => none
      | some (l, r) => some (c :: l, r)

def parseStrTok : List Char → Option (String × List Char)
  | [] => none
  | c :: rest =>
    if c = '"' then
      match parseStrBody rest with
      | none => none
      | some (l, r) => some (String.mk l, r)
    else none

def digitsVal (ds : List Char) : Nat :=
  ds.foldl (fun a c => 10 * a + (c.toNat - 48)) 0

def parseNum : List Char → Option (Int × List Char)
  | [] => none
  | c :: rest =>
    if c = '-' then
      if (rest.takeWhile Char.isDigit).isEmpty then none
      else some (-(Int.ofNat (digitsVal (rest.takeWhile Char.isDigit))),
        rest.dropWhile Char.isDigit)
    else
      if ((c :: rest).takeWhile Char.isDigit).isEmpty then none
      else some (Int.ofNat (digitsVal ((c :: rest).takeWhile Char.isDigit)),
        (c :: rest).dropWhile Char.isDigit)

/-- Parse `"key": value (, "key": value)* }` given a value parser. -/
def parseMembersAux (pv : List Char → Option (JVal × List Char)) :
    Nat → List Char → Option (List (String × JVal) × List Char)
  | 0, _ => none
  | fu + 1, cs =>
    match parseStrTok (cs.dropWhile jws) with
    | none => none
    | some (k, r1) =>
      match r1.dropWhile jws with
      | [] => none
      | c :: r2 =>
        if c = ':' then
          match pv r2 with
          | none => none
          | some (v, r3) =>
            match r3.dropWhile jws with
            | [] => none
            | d :: r4 =>
              if d = ',' then
                match parseMembersAux pv fu r4 with
                | none => none
                | some (es, r5) => some ((k, v) :: es, r5)
              else if d = '}' then some ([(k, v)], r4)
              else none
        else none

/-- Parse `value (, value)* ]` given a value parser. -/
def parseItemsAux (pv : List Char → Option (JVal × List Char)) :
    Nat → List Char → Option (List JVal × List Char)
  | 0, _ => none
  | fu + 1, cs =>
    match pv cs with
    | none => none
    | some (v, r1) =>
      match r1.dropWhile jws with
      | [] => none
      | d :: r2 =>
        if d = ',' then
          match parseItemsAux pv fu r2 with
          | none => none
          | some (vs, r3) => some (v :: vs, r3)
        else if d = ']' then some ([v], r2)
        else none

/-- Parse one JSON value, skipping leading whitespace. -/
def parseVal : Nat → List Char → Option (JVal × List Char)
  | 0, _ => none
  | fu + 1, cs =>
    match cs.dropWhile jws with
    | [] => none
    | c :: rest =>
      if c = '{' then
        match rest.dropWhile jws with
        | [] => none
        | d :: r2 =>
          if d = '}' then some (.jobj [], r2)
          else
            match parseMembersAux (parseVal fu) fu rest with
            | none => none
            | some (es, r) => some (.jobj es, r)
      else if c = '[' then
        match rest.dropWhile jws with
        | [] => none
        | d :: r2 =>
          if d = ']' then some (.jarr [], r2)
          else
            match parseItemsAux (parseVal fu) fu rest with
            | none => none
            | some (vs, r) => some (.jarr vs, r)
      else if c = '"' then
        match parseStrBody rest with
        | none => none
        | some (l, r) => some (.jstr (String.mk l), r)
      else if c = 't' then
        match rest with
        | 'r' :: 'u' :: 'e' :: r => some (.jbool true, r)
        | _ => none
      else if c = 'f' then
        match rest with
        | 'a' :: 'l' :: 's' :: 'e' :: r => some (.jbool false, r)
        | _ => none
      else if c = 'n' then
        match rest with
        | 'u' :: 'l' :: 'l' :: r => some (.jnull, r)
        | _ => none
      else
        match parseNum (c :: rest) with
        | none => none
        | some (i, r) => some (.jnum i, r)

/-- `json.load` on a whole document: one value, then only whitespace. -/
def json_parse (content : String) : Option JVal :=
  match parseVal (content.data.length + 1) content.data with
  | none => none
  | some (v, r) => if (r.dropWhile jws).isEmpty then some v else none

/-! ## The record store (src/Main.py lines 104–112)

```python
def _write_json(path: str, obj: Dict):
    os.makedirs(os.path.dirname(path), exist_ok=True)
    with open(path, "w", encoding="utf-8") as f:
        json.dump(obj, f, ensure_ascii=False, indent=2)

def _read_json(path: str) -> Dict:
    if not os.path.isfile(path): return {}
    with open(path, "r", encoding="utf-8") as f:
        return json.load(f)
```
-/

/-- Error kinds observable when reading a record.  `jsonDecodeError` is
Python's `json.JSONDecodeError`, raised by the bare `json.load` call in
`_read_json` on malformed content.  `cacheCorruption` models the
distinct `CacheCorruption` error kind that §7 of the specification
prescribes for corrupt records; src/Main.py defines no such kind, and
the constructor exists here only so that the specified behavior can be
compared with the code's. -/
inductive ReadErr where
  | jsonDecodeError : ReadErr
  | cacheCorruption : ReadErr
deriving DecidableEq, Repr

def _write_json (fs : FS) (path : String) (obj : JVal) : FS :=
  fs.write path (String.mk (dumpVal indentLayout 0 obj))

def _read_json (fs : FS) (path : String) : Except ReadErr JVal :=
  match fs.lookup path with
  | none => Except.ok (JVal.jobj [])
  | some content =>
    match json_parse content with
    | some v => Except.ok v
    | none => Except.error ReadErr.jsonDecodeError

/-! ## `settings_hash` (src/Main.py lines 128–130)

```python
def settings_hash(d: Dict) -> str:
    s = json.dumps(d, sort_keys=True)
    return hashlib.sha256(s.encode()).hexdigest()
```

`sort_keys=True` serializes every object with its keys in sorted
order; this is modelled by serializing the recursively key-sorted
value.  `hashlib.sha256` is an external primitive and enters the
embedding as the function parameter `hash`. -/

def insEntry (e : String × JVal) : List (String × JVal) → List (String × JVal)
  | [] => [e]
  | f :: fs => if e.1 ≤ f.1 then e :: f :: fs else f :: insEntry e fs

/-- Sort an object's entries by key (insertion sort, Python's
lexicographic string order). -/
def sortEntries (es : List (String × JVal)) : List (String × JVal) :=
  es.foldr insEntry []

/-- Recursively sort all object keys, as `sort_keys=True` does. -/
def sortVals : JVal → JVal
  | .jstr s => .jstr s
  | .jnum i => .jnum i
  | .jbool b => .jbool b
  | .jnull => .jnull
  | .jarr vs => .jarr (sortList vs)
  | .jobj es => .jobj (sortEntries (sortObjVals es))
where
  sortList : List JVal → List JVal
    | [] => []
    | v :: vs => sortVals v :: sortList vs
  sortObjVals : List (String × JVal) → List (String × JVal)
    | [] => []
    | e :: es => (e.1, sortVals e.2) :: sortObjVals es

/-- The canonical serialization `json.dumps(d, sort_keys=True)`. -/
def settingsCanon (d : List (String × JVal)) : String :=
  String.mk (dumpVal compactLayout 0 (sortVals (JVal.jobj d)))

def settings_hash (hash : String → String) (d : List (String × JVal)) : String :=
  hash (settingsCanon d)

/-! ## The memoized derivation pipeline (specification §4.4 / §7) -/

/-- Error kinds of the derivation pipeline (specification §7). -/
inductive PipeErr where
  | configurationError : PipeErr
deriving DecidableEq, Repr

/-- A settings structure as passed to the pipeline: a JSON-like
key-value configuration, or `invalid`, standing for a missing or
non-serializable (unhashable) configuration object. -/
inductive PyConfig where
  | valid : List (String × JVal) → PyConfig
  | invalid : PyConfig

/-- Modelled from the spec: `get_or_compute` (§4.4) is not part of
src/Main.py — the file is truncated before the pipeline and tab code —
so it is modelled from the specification's steps: derive the key
`artifact_name + ":" + digest_settings(settings)`, return the stored
text when the read yields a non-empty result (cache hit), otherwise
invoke `compute_fn`, persist its output under the key and return it.
A missing or invalid settings structure fails fast with
`ConfigurationError` (§7) before `compute_fn` is attempted.  The result
carries the updated store and the number of `compute_fn`
invocations. -/
def get_or_compute (hash : String → String) (fs : FS) (session_id artifact_name : String)
    (settings : PyConfig) (compute_fn : Unit → String) :
    Except PipeErr String × FS × Nat :=
  match settings with
  | .invalid => (Except.error PipeErr.configurationError, fs, 0)
  | .valid d =>
    let path := session_id ++ "/" ++ (artifact_name ++ ":" ++ settings_hash hash d)
    let cached := _read_text fs path
    if cached ≠ "" then (Except.ok cached, fs, 0)
    else
      let out := compute_fn ()
      (Except.ok out, _write_text fs path (some out), 1)

/-! ## Round-trip: the parser inverts the serializer -/

theorem jws_le32 (x : Char) (hp : jws x = true) : x.toNat ≤ 32 := by
  simp only [jws, Bool.or_eq_true, beq_iff_eq] at hp
  rcases hp with ((h | h) | h) | h <;> subst h <;> decide

theorem isDigit_iff (c : Char) : c.isDigit = true ↔ 48 ≤ c.toNat ∧ c.toNat ≤ 57 := by
  simp only [Char.isDigit, Bool.and_eq_true, decide_eq_true_eq]
  exact ⟨fun h => ⟨h.1, h.2⟩, fun h => ⟨h.1, h.2⟩⟩

theorem digit_not_jws (c : Char) (h : c.isDigit = true) : jws c = false := by
  cases hj : jws c with
  | false => rfl
  | true =>
    have h1 := jws_le32 c hj
    have h2 := (isDigit_iff c).mp h
    omega

theorem jws_not_digit (c : Char) (h : jws c = true) : c.isDigit = false := by
  cases hd : c.isDigit with
  | false => rfl
  | true =>
    have h1 := jws_le32 c h
    have h2 := (isDigit_iff c).mp hd
    omega

theorem dropWhile_jws_ws_append (w r : List Char) (hw : ∀ c ∈ w, jws c = true) :
    (w ++ r).dropWhile jws = r.dropWhile jws := by
  induction w with
  | nil => rfl
  | cons c w' ih =>
    rw [List.cons_append, dropWhile_cons_pos jws c _ (hw c (by simp))]
    exact ih (fun x hx => hw x (List.mem_cons_of_mem _ hx))

/-- The head of `r` (if any) does not satisfy `p`. -/
def headNot (p : Char → Bool) : List Char → Prop
  | [] => True
  | c :: _ => p c = false

theorem headNot_nil (p : Char → Bool) : headNot p [] := trivial

theorem headNot_cons (p : Char → Bool) (c : Char) (t : List Char) (h : p c = false) :
    headNot p (c :: t) := h

theorem noDigit_ws_append (w r : List Char) (hw : ∀ c ∈ w, jws c = true)
    (hr : headNot Char.isDigit r) : headNot Char.isDigit (w ++ r) := by
  cases w with
  | nil => exact hr
  | cons c w' =>
    exact headNot_cons Char.isDigit c _ (jws_not_digit c (hw c (by simp)))

theorem takeWhile_eq_nil_of_headNot (p : Char → Bool) (r : List Char) (h : headNot p r) :
    r.takeWhile p = [] := by
  cases r with
  | nil => rfl
  | cons c t =>
    have hc : p c = false := h
    simp [List.takeWhile_cons, hc]

theorem takeWhile_all_append (p : Char → Bool) (l r : List Char)
    (hl : ∀ c ∈ l, p c = true) (hr : headNot p r) : (l ++ r).takeWhile p = l := by
  induction l with
  | nil => simpa using takeWhile_eq_nil_of_headNot p r hr
  | cons c l' ih =>
    rw [List.cons_append, List.takeWhile_cons, if_pos (hl c (by simp))]
    rw [ih (fun x hx => hl x (List.mem_cons_of_mem _ hx))]

theorem dropWhile_all_append (p : Char → Bool) (l r : List Char)
    (hl : ∀ c ∈ l, p c = true) (hr : headNot p r) : (l ++ r).dropWhile p = r := by
  induction l with
  | nil =>
    cases r with
    | nil => rfl
    | cons c t => exact dropWhile_cons_neg p c t hr
  | cons c l' ih =>
    rw [List.cons_append, dropWhile_cons_pos p c _ (hl c (by simp))]
    exact ih (fun x hx => hl x (List.mem_cons_of_mem _ hx))

theorem natCharsAux_all_digit : ∀ fu n c, c ∈ natCharsAux fu n → c.isDigit = true := by
  intro fu
  induction fu with
  | zero => intro n c hc; simp [natCharsAux] at hc
  | succ fu ih =>
    intro n c hc
    simp only [natCharsAux] at hc
    by_cases h : n < 10
    · rw [if_pos h] at hc
      simp only [List.mem_singleton] at hc
      subst hc
      rw [isDigit_iff, charOfNat_toNat (48 + n) (by omega)]
      omega
    · rw [if_neg h] at hc
      rcases List.mem_append.mp hc with h1 | h1
      · exact ih _ c h1
      · simp only [List.mem_singleton] at h1
        subst h1
        rw [isDigit_iff, charOfNat_toNat (48 + n % 10) (by omega)]
        omega

theorem natChars_all_digit (n : Nat) : ∀ c ∈ natChars n, c.isDigit = true :=
  fun c hc => natCharsAux_all_digit (n + 1) n c hc

theorem natCharsAux_ne_nil (fu n : Nat) (h : fu ≠ 0) : natCharsAux fu n ≠ [] := by
  cases fu with
  | zero => exact absurd rfl h
  | succ fu =>
    simp only [natCharsAux]
    by_cases h10 : n < 10
    · rw [if_pos h10]; simp
    · rw [if_neg h10]; simp

theorem natChars_head_digit (n : Nat) :
    ∃ c t, natChars n = c :: t ∧ c.isDigit = true := by
  cases hc : natChars n with
  | nil => exact absurd hc (natCharsAux_ne_nil (n + 1) n (by omega))
  | cons c t =>
    refine ⟨c, t, rfl, natChars_all_digit n c ?_⟩
    rw [hc]
    simp

theorem digitsVal_append_one (xs : List Char) (d : Char) :
    digitsVal (xs ++ [d]) = 10 * digitsVal xs + (d.toNat - 48) := by
  unfold digitsVal
  rw [List.foldl_append]
  rfl

theorem digitsVal_natCharsAux : ∀ fu n, n < fu → digitsVal (natCharsAux fu n) = n := by
  intro fu
  induction fu with
  | zero => intro n h; omega
  | succ fu ih =>
    intro n h
    simp only [natCharsAux]
    by_cases h10 : n < 10
    · rw [if_pos h10]
      show digitsVal [Char.ofNat (48 + n)] = n
      unfold digitsVal
      simp only [List.foldl_cons, List.foldl_nil]
      rw [charOfNat_toNat (48 + n) (by omega)]
      omega
    · rw [if_neg h10, digitsVal_append_one, ih (n / 10) (by omega),
          charOfNat_toNat (48 + n % 10) (by omega)]
      omega

theorem digitsVal_natChars (n : Nat) : digitsVal (natChars n) = n :=
  digitsVal_natCharsAux (n + 1) n (by omega)

theorem parseNum_intChars (i : Int) (rest : List Char) (hr : headNot Char.isDigit rest) :
    parseNum (intChars i ++ rest) = some (i, rest) := by
  unfold intChars
  by_cases hneg : i < 0
  · rw [if_pos hneg]
    rw [List.cons_append]
    simp only [parseNum, if_true]
    rw [takeWhile_all_append Char.isDigit (natChars i.natAbs) rest (natChars_all_digit _) hr,
        dropWhile_all_append Char.isDigit (natChars i.natAbs) rest (natChars_all_digit _) hr,
        if_neg (by simp [List.isEmpty_iff]; exact natCharsAux_ne_nil _ _ (by omega)),
        digitsVal_natChars]
    have hi : -(Int.ofNat i.natAbs) = i := by
      show -((i.natAbs : Int)) = i
      omega
    rw [hi]
  · rw [if_neg hneg]
    obtain ⟨c, t, hct, hcd⟩ := natChars_head_digit i.natAbs
    rw [hct, List.cons_append]
    have hcm : ¬ c = '-' := by
      intro he
      subst he
      exact absurd hcd (by decide)
    simp only [parseNum, if_neg hcm]
    rw [← List.cons_append, ← hct,
        takeWhile_all_append Char.isDigit (natChars i.natAbs) rest (natChars_all_digit _) hr,
        dropWhile_all_append Char.isDigit (natChars i.natAbs) rest (natChars_all_digit _) hr,
        if_neg (by simp [List.isEmpty_iff]; exact natCharsAux_ne_nil _ _ (by omega)),
        digitsVal_natChars]
    have hi : Int.ofNat i.natAbs = i := by
      show ((i.natAbs : Int)) = i
      omega
    rw [hi]

theorem parseStrBody_escList (l : List Char) (rest : List Char) :
    parseStrBody (escList l ++ '"' :: rest) = some (l, rest) := by
  induction l with
  | nil =>
    show parseStrBody ('"' :: rest) = some ([], rest)
    rw [parseStrBody.eq_def]
    rfl
  | cons c l' ih =>
    show parseStrBody ((escChar c ++ escList l') ++ '"' :: rest) = some (c :: l', rest)
    rw [List.append_assoc]
    unfold escChar
    by_cases h1 : c = '"'
    · subst h1
      rw [if_pos rfl]
      simp only [List.cons_append, List.nil_append]
      rw [parseStrBody.eq_def]
      simp only [ih, unescChar]
      rfl
    · rw [if_neg h1]
      by_cases h2 : c = '\\'
      · subst h2
        rw [if_pos rfl]
        simp only [List.cons_append, List.nil_append]
        rw [parseStrBody.eq_def]
        simp only [ih, unescChar]
        rfl
      · rw [if_neg h2]
        by_cases h3 : c = '\n'
        · subst h3
          rw [if_pos rfl]
          simp only [List.cons_append, List.nil_append]
          rw [parseStrBody.eq_def]
          simp only [ih, unescChar]
          rfl
        · rw [if_neg h3]
          by_cases h4 : c = '\t'
          · subst h4
            rw [if_pos rfl]
            simp only [List.cons_append, List.nil_append]
            rw [parseStrBody.eq_def]
            simp only [ih, unescChar]
            rfl
          · rw [if_neg h4]
            by_cases h5 : c = '\r'
            · subst h5
              rw [if_pos rfl]
              simp only [List.cons_append, List.nil_append]
              rw [parseStrBody.eq_def]
              simp only [ih, unescChar]
              rfl
            · rw [if_neg h5]
              simp only [List.cons_append]
              rw [parseStrBody.eq_def]
              simp only [List.nil_append, if_neg h1, if_neg h2, ih]

theorem parseStrTok_dumpStr (k : String) (rest : List Char) :
    parseStrTok (dumpStr k ++ rest) = some (k, rest) := by
  unfold dumpStr
  simp only [List.cons_append, List.append_assoc, List.singleton_append]
  rw [parseStrTok.eq_def]
  simp only [parseStrBody_escList]
  rfl

theorem dumpVal_head_stop (L : Layout) (lvl : Nat) (v : JVal) (rest : List Char) :
    (dumpVal L lvl v ++ rest).dropWhile jws = dumpVal L lvl v ++ rest := by
  cases v with
  | jstr s =>
    simp only [dumpVal, dumpStr, List.cons_append]
    exact dropWhile_cons_neg jws '"' _ (by decide)
  | jnum i =>
    simp only [dumpVal, intChars]
    by_cases h : i < 0
    · rw [if_pos h]
      simp only [List.cons_append]
      exact dropWhile_cons_neg jws '-' _ (by decide)
    · rw [if_neg h]
      obtain ⟨c, t, hct, hcd⟩ := natChars_head_digit i.natAbs
      rw [hct]
      simp only [List.cons_append]
      exact dropWhile_cons_neg jws c _ (digit_not_jws c hcd)
  | jbool b =>
    cases b with
    | true =>
      simp only [dumpVal, List.cons_append]
      exact dropWhile_cons_neg jws 't' _ (by decide)
    | false =>
      simp only [dumpVal, List.cons_append]
      exact dropWhile_cons_neg jws 'f' _ (by decide)
  | jnull =>
    simp only [dumpVal, List.cons_append]
    exact dropWhile_cons_neg jws 'n' _ (by decide)
  | jarr vs =>
    cases vs with
    | nil =>
      simp only [dumpVal, List.cons_append]
      exact dropWhile_cons_neg jws '[' _ (by decide)
    | cons v vs' =>
      simp only [dumpVal, List.cons_append]
      exact dropWhile_cons_neg jws '[' _ (by decide)
  | jobj es =>
    cases es with
    | nil =>
      simp only [dumpVal, List.cons_append]
      exact dropWhile_cons_neg jws '{' _ (by decide)
    | cons e es' =>
      simp only [dumpVal, List.cons_append]
      exact dropWhile_cons_neg jws '{' _ (by decide)


/-- All whitespace chunks of a layout really are whitespace. -/
def WsLayout (L : Layout) : Prop :=
  (∀ n, ∀ c ∈ L.afterOpen n, jws c = true) ∧
  (∀ n, ∀ c ∈ L.afterComma n, jws c = true) ∧
  (∀ c ∈ L.afterColon, jws c = true) ∧
  (∀ n, ∀ c ∈ L.beforeClose n, jws c = true)

theorem wsLayout_compact : WsLayout compactLayout := by
  refine ⟨?_, ?_, ?_, ?_⟩
  · intro n c hc; simp [compactLayout] at hc
  · intro n c hc
    simp only [compactLayout, List.mem_singleton] at hc
    subst hc; decide
  · intro c hc
    simp only [compactLayout, List.mem_singleton] at hc
    subst hc; decide
  · intro n c hc; simp [compactLayout] at hc

theorem wsLayout_indent : WsLayout indentLayout := by
  have hrep : ∀ (n : Nat) (c : Char), c ∈ ('\n' :: List.replicate n ' ') → jws c = true := by
    intro n c hc
    rcases List.mem_cons.mp hc with h | h
    · subst h; decide
    · rw [(List.mem_replicate.mp h).2]; decide
  exact ⟨fun n => hrep n, fun n => hrep n,
    by intro c hc; simp only [indentLayout, List.mem_singleton] at hc; subst hc; decide,
    fun n => hrep n⟩

theorem dumpStr_head_stop (k : String) (r : List Char) :
    (dumpStr k ++ r).dropWhile jws = dumpStr k ++ r := by
  unfold dumpStr
  simp only [List.cons_append]
  exact dropWhile_cons_neg jws '"' _ (by decide)

theorem parseMembersAux_dump (L : Layout) (hL : WsLayout L)
    (pv : List Char → Option (JVal × List Char)) (B : Nat)
    (hpv : ∀ w v lvl rest, (∀ c ∈ w, jws c = true) → jsize v ≤ B →
      headNot Char.isDigit rest → pv (w ++ (dumpVal L lvl v ++ rest)) = some (v, rest)) :
    ∀ (es : List (String × JVal)) (fu : Nat) (k : String) (v : JVal) (lvl : Nat)
      (w wc rest0 : List Char),
      (∀ c ∈ w, jws c = true) → (∀ c ∈ wc, jws c = true) →
      1 + jsize v + jsize.msize es ≤ fu →
      1 + jsize v + jsize.msize es ≤ B →
      parseMembersAux pv fu
        (w ++ (dumpStr k ++ (':' :: (L.afterColon ++ (dumpVal L lvl v ++
          (dumpVal.dumpMembers L lvl es ++ (wc ++ ('}' :: rest0))))))))
        = some ((k, v) :: es, rest0) := by
  intro es
  induction es with
  | nil =>
    intro fu k v lvl w wc rest0 hw hwc hfu hB
    match fu, hfu with
    | 0, hfu => exact absurd hfu (by omega)
    | fuN + 1, hfu =>
    have hd1 : (w ++ (dumpStr k ++ (':' :: (L.afterColon ++ (dumpVal L lvl v ++
        (dumpVal.dumpMembers L lvl [] ++ (wc ++ ('}' :: rest0)))))))).dropWhile jws =
        dumpStr k ++ (':' :: (L.afterColon ++ (dumpVal L lvl v ++
          (dumpVal.dumpMembers L lvl [] ++ (wc ++ ('}' :: rest0)))))) := by
      rw [dropWhile_jws_ws_append w _ hw, dumpStr_head_stop]
    have h1 : ((':' :: (L.afterColon ++ (dumpVal L lvl v ++
        (dumpVal.dumpMembers L lvl [] ++ (wc ++ ('}' :: rest0)))))).dropWhile jws) =
        ':' :: (L.afterColon ++ (dumpVal L lvl v ++
          (dumpVal.dumpMembers L lvl [] ++ (wc ++ ('}' :: rest0))))) :=
      dropWhile_cons_neg jws ':' _ (by decide)
    have h2 : pv (L.afterColon ++ (dumpVal L lvl v ++
        (dumpVal.dumpMembers L lvl [] ++ (wc ++ ('}' :: rest0))))) =
        some (v, dumpVal.dumpMembers L lvl [] ++ (wc ++ ('}' :: rest0))) := by
      apply hpv _ _ _ _ hL.2.2.1 (by omega)
      show headNot Char.isDigit (dumpVal.dumpMembers L lvl [] ++ (wc ++ ('}' :: rest0)))
      simp only [dumpVal.dumpMembers, List.nil_append]
      exact noDigit_ws_append wc _ hwc (headNot_cons Char.isDigit '}' rest0 (by decide))
    have h3 : (dumpVal.dumpMembers L lvl [] ++ (wc ++ ('}' :: rest0))).dropWhile jws =
        '}' :: rest0 := by
      simp only [dumpVal.dumpMembers, List.nil_append]
      rw [dropWhile_jws_ws_append wc _ hwc, dropWhile_cons_neg jws '}' rest0 (by decide)]
    rw [parseMembersAux.eq_def]
    simp only [hd1, parseStrTok_dumpStr, h1, h2, h3, eq_self_iff_true, if_true,
      if_neg (show ¬('}' : Char) = ',' by decide)]
  | cons e es' ih =>
    intro fu k v lvl w wc rest0 hw hwc hfu hB
    match fu, hfu with
    | 0, hfu => exact absurd hfu (by omega)
    | fuN + 1, hfu =>
    have hmem : dumpVal.dumpMembers L lvl (e :: es') =
        ',' :: (L.afterComma lvl ++ (dumpStr e.1 ++ (':' :: (L.afterColon ++
          (dumpVal L lvl e.2 ++ dumpVal.dumpMembers L lvl es'))))) := by
      rw [dumpVal.dumpMembers]
      simp only [List.cons_append, List.append_assoc]
    have hd1 : (w ++ (dumpStr k ++ (':' :: (L.afterColon ++ (dumpVal L lvl v ++
        (dumpVal.dumpMembers L lvl (e :: es') ++ (wc ++ ('}' :: rest0)))))))).dropWhile jws =
        dumpStr k ++ (':' :: (L.afterColon ++ (dumpVal L lvl v ++
          (dumpVal.dumpMembers L lvl (e :: es') ++ (wc ++ ('}' :: rest0)))))) := by
      rw [dropWhile_jws_ws_append w _ hw, dumpStr_head_stop]
    have h1 : ((':' :: (L.afterColon ++ (dumpVal L lvl v ++
        (dumpVal.dumpMembers L lvl (e :: es') ++ (wc ++ ('}' :: rest0)))))).dropWhile jws) =
        ':' :: (L.afterColon ++ (dumpVal L lvl v ++
          (dumpVal.dumpMembers L lvl (e :: es') ++ (wc ++ ('}' :: rest0))))) :=
      dropWhile_cons_neg jws ':' _ (by decide)
    have h2 : pv (L.afterColon ++ (dumpVal L lvl v ++
        (dumpVal.dumpMembers L lvl (e :: es') ++ (wc ++ ('}' :: rest0))))) =
        some (v, dumpVal.dumpMembers L lvl (e :: es') ++ (wc ++ ('}' :: rest0))) := by
      apply hpv _ _ _ _ hL.2.2.1 (by simp only [jsize.msize] at hB; omega)
      rw [hmem]
      exact headNot_cons Char.isDigit ',' _ (by decide)
    have h3 : (dumpVal.dumpMembers L lvl (e :: es') ++ (wc ++ ('}' :: rest0))).dropWhile jws =
        ',' :: (L.afterComma lvl ++ (dumpStr e.1 ++ (':' :: (L.afterColon ++
          (dumpVal L lvl e.2 ++ (dumpVal.dumpMembers L lvl es' ++
            (wc ++ ('}' :: rest0)))))))) := by
      rw [hmem]
      simp only [List.cons_append, List.append_assoc]
      rw [dropWhile_cons_neg jws ',' _ (by decide)]
    have hbound1 : 1 + jsize e.2 + jsize.msize es' ≤ fuN := by
      simp only [jsize.msize] at hfu
      omega
    have hbound2 : 1 + jsize e.2 + jsize.msize es' ≤ B := by
      simp only [jsize.msize] at hB
      omega
    have hrec := ih fuN e.1 e.2 lvl (L.afterComma lvl) wc rest0 (hL.2.1 lvl) hwc hbound1 hbound2
    rw [parseMembersAux.eq_def]
    simp only [hd1, parseStrTok_dumpStr, h1, h2, h3, eq_self_iff_true, if_true, hrec]

theorem parseItemsAux_dump (L : Layout) (hL : WsLayout L)
    (pv : List Char → Option (JVal × List Char)) (B : Nat)
    (hpv : ∀ w v lvl rest, (∀ c ∈ w, jws c = true) → jsize v ≤ B →
      headNot Char.isDigit rest → pv (w ++ (dumpVal L lvl v ++ rest)) = some (v, rest)) :
    ∀ (vs : List JVal) (fu : Nat) (v : JVal) (lvl : Nat) (w wc rest0 : List Char),
      (∀ c ∈ w, jws c = true) → (∀ c ∈ wc, jws c = true) →
      1 + jsize v + jsize.isize vs ≤ fu →
      1 + jsize v + jsize.isize vs ≤ B →
      parseItemsAux pv fu
        (w ++ (dumpVal L lvl v ++ (dumpVal.dumpItems L lvl vs ++ (wc ++ (']' :: rest0)))))
        = some (v :: vs, rest0) := by
  intro vs
  induction vs with
  | nil =>
    intro fu v lvl w wc rest0 hw hwc hfu hB
    match fu, hfu with
    | 0, hfu => exact absurd hfu (by omega)
    | fuN + 1, hfu =>
    have h2 : pv (w ++ (dumpVal L lvl v ++
        (dumpVal.dumpItems L lvl [] ++ (wc ++ (']' :: rest0))))) =
        some (v, dumpVal.dumpItems L lvl [] ++ (wc ++ (']' :: rest0))) := by
      apply hpv _ _ _ _ hw (by omega)
      show headNot Char.isDigit (dumpVal.dumpItems L lvl [] ++ (wc ++ (']' :: rest0)))
      simp only [dumpVal.dumpItems, List.nil_append]
      exact noDigit_ws_append wc _ hwc (headNot_cons Char.isDigit ']' rest0 (by decide))
    have h3 : (dumpVal.dumpItems L lvl [] ++ (wc ++ (']' :: rest0))).dropWhile jws =
        ']' :: rest0 := by
      simp only [dumpVal.dumpItems, List.nil_append]
      rw [dropWhile_jws_ws_append wc _ hwc, dropWhile_cons_neg jws ']' rest0 (by decide)]
    rw [parseItemsAux.eq_def]
    simp only [h2, h3, eq_self_iff_true, if_true,
      if_neg (show ¬(']' : Char) = ',' by decide)]
  | cons v2 vs' ih =>
    intro fu v lvl w wc rest0 hw hwc hfu hB
    match fu, hfu with
    | 0, hfu => exact absurd hfu (by omega)
    | fuN + 1, hfu =>
    have hit : dumpVal.dumpItems L lvl (v2 :: vs') =
        ',' :: (L.afterComma lvl ++ (dumpVal L lvl v2 ++ dumpVal.dumpItems L lvl vs')) := by
      rw [dumpVal.dumpItems]
      simp only [List.cons_append, List.append_assoc]
    have h2 : pv (w ++ (dumpVal L lvl v ++
        (dumpVal.dumpItems L lvl (v2 :: vs') ++ (wc ++ (']' :: rest0))))) =
        some (v, dumpVal.dumpItems L lvl (v2 :: vs') ++ (wc ++ (']' :: rest0))) := by
      apply hpv _ _ _ _ hw (by simp only [jsize.isize] at hB; omega)
      rw [hit]
      exact headNot_cons Char.isDigit ',' _ (by decide)
    have h3 : (dumpVal.dumpItems L lvl (v2 :: vs') ++ (wc ++ (']' :: rest0))).dropWhile jws =
        ',' :: (L.afterComma lvl ++ (dumpVal L lvl v2 ++ (dumpVal.dumpItems L lvl vs' ++
          (wc ++ (']' :: rest0))))) := by
      rw [hit]
      simp only [List.cons_append, List.append_assoc]
      rw [dropWhile_cons_neg jws ',' _ (by decide)]
    have hbound1 : 1 + jsize v2 + jsize.isize vs' ≤ fuN := by
      simp only [jsize.isize] at hfu
      omega
    have hbound2 : 1 + jsize v2 + jsize.isize vs' ≤ B := by
      simp only [jsize.isize] at hB
      omega
    have hrec := ih fuN v2 lvl (L.afterComma lvl) wc rest0 (hL.2.1 lvl) hwc hbound1 hbound2
    rw [parseItemsAux.eq_def]
    simp only [h2, h3, eq_self_iff_true, if_true, hrec]

theorem jsize_pos (v : JVal) : 1 ≤ jsize v := by
  cases v <;> simp [jsize]

theorem dumpVal_head (L : Layout) (lvl : Nat) (v : JVal) :
    ∃ c t, dumpVal L lvl v = c :: t ∧ jws c = false ∧ ¬ c = ']' ∧ ¬ c = '}' := by
  cases v with
  | jstr s =>
    refine ⟨'"', escList s.data ++ ['"'], ?_, by decide, by decide, by decide⟩
    simp [dumpVal, dumpStr]
  | jnum i =>
    by_cases h : i < 0
    · refine ⟨'-', natChars i.natAbs, ?_, by decide, by decide, by decide⟩
      simp [dumpVal, intChars, h]
    · obtain ⟨c, t, hct, hcd⟩ := natChars_head_digit i.natAbs
      refine ⟨c, t, ?_, digit_not_jws c hcd, ?_, ?_⟩
      · simp [dumpVal, intChars, h, hct]
      · intro he; subst he; exact absurd hcd (by decide)
      · intro he; subst he; exact absurd hcd (by decide)
  | jbool b =>
    cases b with
    | true => exact ⟨'t', ['r', 'u', 'e'], by simp [dumpVal], by decide, by decide, by decide⟩
    | false =>
      exact ⟨'f', ['a', 'l', 's', 'e'], by simp [dumpVal], by decide, by decide, by decide⟩
  | jnull => exact ⟨'n', ['u', 'l', 'l'], by simp [dumpVal], by decide, by decide, by decide⟩
  | jarr vs =>
    cases vs with
    | nil => exact ⟨'[', [']'], by simp [dumpVal], by decide, by decide, by decide⟩
    | cons v vs' =>
      refine ⟨'[', L.afterOpen (lvl + 2) ++ (dumpVal L (lvl + 2) v ++
        (dumpVal.dumpItems L (lvl + 2) vs' ++ (L.beforeClose lvl ++ [']']))), ?_,
        by decide, by decide, by decide⟩
      simp [dumpVal, List.cons_append, List.append_assoc]
  | jobj es =>
    cases es with
    | nil => exact ⟨'{', ['}'], by simp [dumpVal], by decide, by decide, by decide⟩
    | cons e es' =>
      refine ⟨'{', L.afterOpen (lvl + 2) ++ (dumpStr e.1 ++ (':' :: (L.afterColon ++
        (dumpVal L (lvl + 2) e.2 ++ (dumpVal.dumpMembers L (lvl + 2) es' ++
          (L.beforeClose lvl ++ ['}'])))))), ?_, by decide, by decide, by decide⟩
      simp [dumpVal, List.cons_append, List.append_assoc]

theorem parseVal_dump (L : Layout) (hL : WsLayout L) :
    ∀ (fu : Nat) (v : JVal) (lvl : Nat) (w rest : List Char),
      (∀ c ∈ w, jws c = true) → jsize v ≤ fu → headNot Char.isDigit rest →
      parseVal fu (w ++ (dumpVal L lvl v ++ rest)) = some (v, rest) := by
  intro fu
  induction fu with
  | zero =>
    intro v lvl w rest hw hfu hrest
    exact absurd hfu (by have := jsize_pos v; omega)
  | succ fuN ih =>
    intro v lvl w rest hw hfu hrest
    have hd0 : (w ++ (dumpVal L lvl v ++ rest)).dropWhile jws = dumpVal L lvl v ++ rest := by
      rw [dropWhile_jws_ws_append w _ hw, dumpVal_head_stop]
    rw [parseVal.eq_def]
    simp only [hd0]
    cases v with
    | jstr s =>
      simp only [dumpVal, dumpStr, List.cons_append, List.append_assoc,
        List.singleton_append, List.nil_append]
      simp only [if_neg (show ¬('"' : Char) = '{' by decide),
        if_neg (show ¬('"' : Char) = '[' by decide), eq_self_iff_true, if_true,
        parseStrBody_escList]
    | jnum i =>
      have hnum := parseNum_intChars i rest hrest
      simp only [dumpVal]
      by_cases hneg : i < 0
      · have hic : intChars i = '-' :: natChars i.natAbs := by
          unfold intChars
          rw [if_pos hneg]
        rw [hic]
        simp only [List.cons_append,
          if_neg (show ¬('-' : Char) = '{' by decide),
          if_neg (show ¬('-' : Char) = '[' by decide),
          if_neg (show ¬('-' : Char) = '"' by decide),
          if_neg (show ¬('-' : Char) = 't' by decide),
          if_neg (show ¬('-' : Char) = 'f' by decide),
          if_neg (show ¬('-' : Char) = 'n' by decide)]
        rw [hic] at hnum
        simp only [List.cons_append] at hnum
        rw [hnum]
      · have hic : intChars i = natChars i.natAbs := by
          unfold intChars
          rw [if_neg hneg]
        obtain ⟨c, t, hct, hcd⟩ := natChars_head_digit i.natAbs
        have hcb := (isDigit_iff c).mp hcd
        have hn1 : ¬ c = '{' := fun he => by subst he; exact absurd hcd (by decide)
        have hn2 : ¬ c = '[' := fun he => by subst he; exact absurd hcd (by decide)
        have hn3 : ¬ c = '"' := fun he => by subst he; exact absurd hcd (by decide)
        have hn4 : ¬ c = 't' := fun he => by subst he; exact absurd hcd (by decide)
        have hn5 : ¬ c = 'f' := fun he => by subst he; exact absurd hcd (by decide)
        have hn6 : ¬ c = 'n' := fun he => by subst he; exact absurd hcd (by decide)
        rw [hic, hct]
        simp only [List.cons_append, if_neg hn1, if_neg hn2, if_neg hn3, if_neg hn4,
          if_neg hn5, if_neg hn6]
        rw [hic, hct] at hnum
        simp only [List.cons_append] at hnum
        rw [hnum]
    | jbool b =>
      cases b with
      | true =>
        simp only [dumpVal, List.cons_append, List.nil_append,
          if_neg (show ¬('t' : Char) = '{' by decide),
          if_neg (show ¬('t' : Char) = '[' by decide),
          if_neg (show ¬('t' : Char) = '"' by decide),
          eq_self_iff_true, if_true]
      | false =>
        simp only [dumpVal, Bool.false_eq_true, if_false, List.cons_append, List.nil_append,
          if_neg (show ¬('f' : Char) = '{' by decide),
          if_neg (show ¬('f' : Char) = '[' by decide),
          if_neg (show ¬('f' : Char) = '"' by decide),
          if_neg (show ¬('f' : Char) = 't' by decide),
          eq_self_iff_true, if_true]
    | jnull =>
      simp only [dumpVal, List.cons_append, List.nil_append,
        if_neg (show ¬('n' : Char) = '{' by decide),
        if_neg (show ¬('n' : Char) = '[' by decide),
        if_neg (show ¬('n' : Char) = '"' by decide),
        if_neg (show ¬('n' : Char) = 't' by decide),
        if_neg (show ¬('n' : Char) = 'f' by decide),
        eq_self_iff_true, if_true]
    | jarr vs =>
      cases vs with
      | nil =>
        simp only [dumpVal, List.cons_append, List.nil_append,
          if_neg (show ¬('[' : Char) = '{' by decide), eq_self_iff_true, if_true,
          dropWhile_cons_neg jws ']' rest (by decide)]
      | cons v vs' =>
        simp only [dumpVal, List.cons_append, List.append_assoc, List.singleton_append,
          List.nil_append]
        simp only [if_neg (show ¬('[' : Char) = '{' by decide), eq_self_iff_true, if_true]
        have hdi : ((L.afterOpen (lvl + 2) ++ (dumpVal L (lvl + 2) v ++
            (dumpVal.dumpItems L (lvl + 2) vs' ++ (L.beforeClose lvl ++
              (']' :: rest))))).dropWhile jws) =
            dumpVal L (lvl + 2) v ++ (dumpVal.dumpItems L (lvl + 2) vs' ++
              (L.beforeClose lvl ++ (']' :: rest))) := by
          rw [dropWhile_jws_ws_append _ _ (hL.1 (lvl + 2)), dumpVal_head_stop]
        rw [hdi]
        obtain ⟨c, t, hct, hws, hne1, hne2⟩ := dumpVal_head L (lvl + 2) v
        rw [hct]
        simp only [List.cons_append, if_neg hne1]
        have hbound : 1 + jsize v + jsize.isize vs' ≤ fuN := by
          simp only [jsize, jsize.isize] at hfu
          omega
        have hitems := parseItemsAux_dump L hL (parseVal fuN) fuN
          (fun w' v' lvl' rest' hw' hv' hr' => ih v' lvl' w' rest' hw' hv' hr')
          vs' fuN v (lvl + 2) (L.afterOpen (lvl + 2)) (L.beforeClose lvl) rest
          (hL.1 (lvl + 2)) (hL.2.2.2 lvl) hbound hbound
        rw [hct] at hitems
        simp only [List.cons_append] at hitems
        rw [hitems]
    | jobj es =>
      cases es with
      | nil =>
        simp only [dumpVal, List.cons_append, List.nil_append, eq_self_iff_true, if_true,
          dropWhile_cons_neg jws '}' rest (by decide)]
      | cons e es' =>
        simp only [dumpVal, dumpStr, List.cons_append, List.append_assoc,
          List.singleton_append, List.nil_append]
        simp only [eq_self_iff_true, if_true]
        have hdm : ((L.afterOpen (lvl + 2) ++ ('"' :: (escList e.1.data ++ ('"' ::
            (':' :: (L.afterColon ++ (dumpVal L (lvl + 2) e.2 ++
              (dumpVal.dumpMembers L (lvl + 2) es' ++ (L.beforeClose lvl ++
                ('}' :: rest)))))))))).dropWhile jws) =
            '"' :: (escList e.1.data ++ ('"' :: (':' :: (L.afterColon ++
              (dumpVal L (lvl + 2) e.2 ++ (dumpVal.dumpMembers L (lvl + 2) es' ++
                (L.beforeClose lvl ++ ('}' :: rest)))))))) := by
          rw [dropWhile_jws_ws_append _ _ (hL.1 (lvl + 2)),
            dropWhile_cons_neg jws '"' _ (by decide)]
        rw [hdm]
        simp only [if_neg (show ¬('"' : Char) = '}' by decide)]
        have hbound : 1 + jsize e.2 + jsize.msize es' ≤ fuN := by
          simp only [jsize, jsize.msize] at hfu
          omega
        have hmembers := parseMembersAux_dump L hL (parseVal fuN) fuN
          (fun w' v' lvl' rest' hw' hv' hr' => ih v' lvl' w' rest' hw' hv' hr')
          es' fuN e.1 e.2 (lvl + 2) (L.afterOpen (lvl + 2)) (L.beforeClose lvl) rest
          (hL.1 (lvl + 2)) (hL.2.2.2 lvl) hbound hbound
        unfold dumpStr at hmembers
        simp only [List.cons_append, List.append_assoc, List.singleton_append,
          List.nil_append] at hmembers
        rw [hmembers]

/-- The serialized form is at least as long as the structural size, so
the parser fuel `length + 1` chosen by `json_parse` always suffices. -/
theorem jsize_le_dump_length (L : Layout) :
    ∀ n : Nat,
      (∀ v lvl, jsize v ≤ n → jsize v ≤ (dumpVal L lvl v).length) ∧
      (∀ vs lvl, jsize.isize vs ≤ n → jsize.isize vs ≤ (dumpVal.dumpItems L lvl vs).length) ∧
      (∀ es lvl, jsize.msize es ≤ n →
        jsize.msize es ≤ (dumpVal.dumpMembers L lvl es).length) := by
  intro n
  induction n with
  | zero =>
    refine ⟨?_, ?_, ?_⟩
    · intro v lvl h
      exact absurd h (by have := jsize_pos v; omega)
    · intro vs lvl h
      cases vs with
      | nil => simp [jsize.isize]
      | cons v vs' =>
        exact absurd h (by simp only [jsize.isize]; have := jsize_pos v; omega)
    · intro es lvl h
      cases es with
      | nil => simp [jsize.msize]
      | cons e es' =>
        exact absurd h (by simp only [jsize.msize]; have := jsize_pos e.2; omega)
  | succ n ihn =>
    obtain ⟨ihP, ihQ, ihR⟩ := ihn
    refine ⟨?_, ?_, ?_⟩
    · intro v lvl h
      cases v with
      | jstr s => simp [jsize, dumpVal, dumpStr]
      | jnum i =>
        simp only [jsize, dumpVal]
        have : intChars i ≠ [] := by
          unfold intChars
          by_cases hn : i < 0
          · rw [if_pos hn]; simp
          · rw [if_neg hn]; exact natCharsAux_ne_nil _ _ (by omega)
        have := List.length_pos.mpr this
        omega
      | jbool b => cases b <;> simp [jsize, dumpVal]
      | jnull => simp [jsize, dumpVal]
      | jarr vs =>
        cases vs with
        | nil => simp [jsize, jsize.isize, dumpVal]
        | cons v vs' =>
          simp only [jsize, jsize.isize] at h ⊢
          have hv := ihP v (lvl + 2) (by omega)
          have hq := ihQ vs' (lvl + 2) (by omega)
          simp only [dumpVal, List.cons_append, List.length_cons, List.length_append]
          omega
      | jobj es =>
        cases es with
        | nil => simp [jsize, jsize.msize, dumpVal]
        | cons e es' =>
          simp only [jsize, jsize.msize] at h ⊢
          have hv := ihP e.2 (lvl + 2) (by omega)
          have hr := ihR es' (lvl + 2) (by omega)
          simp only [dumpVal, List.cons_append, List.length_cons, List.length_append]
          omega
    · intro vs lvl h
      cases vs with
      | nil => simp [jsize.isize]
      | cons v vs' =>
        simp only [jsize.isize] at h ⊢
        have hv := ihP v lvl (by omega)
        have hq := ihQ vs' lvl (by omega)
        simp only [dumpVal.dumpItems, List.cons_append, List.length_cons, List.length_append]
        omega
    · intro es lvl h
      cases es with
      | nil => simp [jsize.msize]
      | cons e es' =>
        simp only [jsize.msize] at h ⊢
        have hv := ihP e.2 lvl (by omega)
        have hr := ihR es' lvl (by omega)
        simp only [dumpVal.dumpMembers, List.cons_append, List.length_cons, List.length_append]
        omega

/-- Parsing a serialized document recovers the value, for either of the
two layouts the source uses. -/
theorem json_parse_dump (L : Layout) (hL : WsLayout L) (v : JVal) :
    json_parse (String.mk (dumpVal L 0 v)) = some v := by
  unfold json_parse
  have hlen : jsize v ≤ (dumpVal L 0 v).length + 1 := by
    have := (jsize_le_dump_length L (jsize v)).1 v 0 le_rfl
    omega
  have h := parseVal_dump L hL ((dumpVal L 0 v).length + 1) v 0 [] [] (by simp)
    hlen (headNot_nil Char.isDigit)
  simp only [List.nil_append, List.append_nil] at h
  show (match parseVal ((dumpVal L 0 v).length + 1) (dumpVal L 0 v) with
    | none => none
    | some (v, r) => if (r.dropWhile jws).isEmpty = true then some v else none) = some v
  rw [h]
  rfl

/-- Round-trip at the record store: `_write_json` then `_read_json`
returns the record exactly. -/
theorem read_json_write_json (fs : FS) (path : String) (obj : JVal) :
    _read_json (_write_json fs path obj) path = Except.ok obj := by
  unfold _write_json _read_json FS.write FS.lookup
  have hlook : List.lookup path ((path, String.mk (dumpVal indentLayout 0 obj)) :: fs) =
      some (String.mk (dumpVal indentLayout 0 obj)) := by
    simp [List.lookup]
  rw [hlook]
  simp only [json_parse_dump indentLayout wsLayout_indent obj]

/-- The canonical serialization determines the recursively key-sorted
value: `json.dumps(·, sort_keys=True)` collides only on dictionaries
that agree after key sorting. -/
theorem settingsCanon_inj (d1 d2 : List (String × JVal))
    (h : settingsCanon d1 = settingsCanon d2) :
    sortVals (JVal.jobj d1) = sortVals (JVal.jobj d2) := by
  have h1 := json_parse_dump compactLayout wsLayout_compact (sortVals (JVal.jobj d1))
  have h2 := json_parse_dump compactLayout wsLayout_compact (sortVals (JVal.jobj d2))
  unfold settingsCanon at h
  rw [h] at h1
  rw [h2] at h1
  exact (Option.some.inj h1).symm

/-! ## Determinism of the key sort -/

/-- Key order on object entries. -/
def keyLE (a b : String × JVal) : Prop := a.1 ≤ b.1

theorem insEntry_perm (e : String × JVal) (l : List (String × JVal)) :
    List.Perm (insEntry e l) (e :: l) := by
  induction l with
  | nil => exact List.Perm.refl _
  | cons f fs ih =>
    unfold insEntry
    by_cases h : e.1 ≤ f.1
    · rw [if_pos h]
    · rw [if_neg h]
      exact (List.Perm.cons f ih).trans (List.Perm.swap e f fs)

theorem sortEntries_perm (es : List (String × JVal)) :
    List.Perm (sortEntries es) es := by
  induction es with
  | nil => exact List.Perm.refl _
  | cons e es' ih =>
    show List.Perm (insEntry e (sortEntries es')) (e :: es')
    exact (insEntry_perm e _).trans (List.Perm.cons e ih)

theorem insEntry_sorted (e : String × JVal) (l : List (String × JVal))
    (hl : List.Sorted keyLE l) : List.Sorted keyLE (insEntry e l) := by
  induction l with
  | nil => simp [insEntry, List.Sorted]
  | cons f fs ih =>
    rw [List.sorted_cons] at hl
    unfold insEntry
    by_cases h : e.1 ≤ f.1
    · rw [if_pos h]
      rw [List.sorted_cons]
      refine ⟨?_, List.sorted_cons.mpr hl⟩
      intro b hb
      rcases List.mem_cons.mp hb with hb | hb
      · subst hb; exact h
      · exact le_trans h (hl.1 b hb)
    · rw [if_neg h]
      rw [List.sorted_cons]
      refine ⟨?_, ih hl.2⟩
      intro b hb
      have hb2 := (insEntry_perm e fs).mem_iff.mp hb
      rcases List.mem_cons.mp hb2 with hb2 | hb2
      · subst hb2
        exact le_of_not_le h
      · exact hl.1 b hb2

theorem sortEntries_sorted (es : List (String × JVal)) :
    List.Sorted keyLE (sortEntries es) := by
  induction es with
  | nil => simp [sortEntries, List.Sorted]
  | cons e es' ih => exact insEntry_sorted e (sortEntries es') ih

/-- Strictly increasing keys for the sort of a duplicate-free entry
list. -/
theorem sortEntries_strict (es : List (String × JVal)) (hnd : (es.map Prod.fst).Nodup) :
    List.Pairwise (fun a b : String × JVal => a.1 < b.1) (sortEntries es) := by
  have hs : List.Pairwise keyLE (sortEntries es) := sortEntries_sorted es
  have hn : ((sortEntries es).map Prod.fst).Nodup :=
    (((sortEntries_perm es).map Prod.fst).nodup_iff).mpr hnd
  have hne : List.Pairwise (fun a b : String × JVal => a.1 ≠ b.1) (sortEntries es) :=
    List.pairwise_map.mp hn
  exact (hs.and hne).imp (fun h => lt_of_le_of_ne h.1 h.2)

/-- Two permutation-equal entry lists with no duplicate keys sort to
the same list: the canonical order is unique. -/
theorem sortEntries_eq_of_perm (es1 es2 : List (String × JVal))
    (hperm : List.Perm es1 es2) (hnd : (es1.map Prod.fst).Nodup) :
    sortEntries es1 = sortEntries es2 := by
  have hp : List.Perm (sortEntries es1) (sortEntries es2) :=
    ((sortEntries_perm es1).trans hperm).trans (sortEntries_perm es2).symm
  have hnd2 : (es2.map Prod.fst).Nodup := ((hperm.map Prod.fst).nodup_iff).mp hnd
  haveI : IsAntisymm (String × JVal) (fun a b => a.1 < b.1) :=
    ⟨fun a b h1 h2 => absurd h2 (lt_asymm h1)⟩
  exact List.eq_of_perm_of_sorted hp (sortEntries_strict es1 hnd) (sortEntries_strict es2 hnd2)

theorem sortObjVals_eq_map (es : List (String × JVal)) :
    sortVals.sortObjVals es = es.map (fun e => (e.1, sortVals e.2)) := by
  induction es with
  | nil => rfl
  | cons e es' ih => simp [sortVals.sortObjVals, ih]

theorem sortObjVals_map_fst (es : List (String × JVal)) :
    (sortVals.sortObjVals es).map Prod.fst = es.map Prod.fst := by
  rw [sortObjVals_eq_map, List.map_map]
  rfl

/-- `d[k] = v` for an existing key: replace the value stored at `k`,
leaving every other entry unchanged. -/
def updateKey (es : List (String × JVal)) (k : String) (v : JVal) : List (String × JVal) :=
  es.map (fun e => if e.1 = k then (e.1, v) else e)

theorem mem_updateKey (es : List (String × JVal)) (k : String) (v' : JVal)
    (e : String × JVal) (he : e ∈ es) (hek : e.1 = k) : (k, v') ∈ updateKey es k v' := by
  unfold updateKey
  rw [List.mem_map]
  exact ⟨e, he, by simp [hek]⟩

theorem keys_nodup_unique (es : List (String × JVal)) (hnd : (es.map Prod.fst).Nodup)
    (a b : String × JVal) (ha : a ∈ es) (hb : b ∈ es) (hk : a.1 = b.1) : a = b := by
  induction es with
  | nil => cases ha
  | cons e es' ih =>
    rw [List.map_cons, List.nodup_cons] at hnd
    rcases List.mem_cons.mp ha with ha1 | ha1 <;> rcases List.mem_cons.mp hb with hb1 | hb1
    · rw [ha1, hb1]
    · subst ha1
      exact absurd (hk ▸ List.mem_map_of_mem Prod.fst hb1) hnd.1
    · subst hb1
      exact absurd (hk ▸ List.mem_map_of_mem Prod.fst ha1) hnd.1
    · exact ih hnd.2 ha1 hb1

/-- Order-independence of the settings digest: two configurations with
the same key-value pairs (in any in-memory order, keys unrepeated)
serialize — and therefore hash — identically. -/
theorem settings_hash_perm (hash : String → String) (es1 es2 : List (String × JVal))
    (hperm : List.Perm es1 es2) (hnd : (es1.map Prod.fst).Nodup) :
    settings_hash hash es1 = settings_hash hash es2 := by
  unfold settings_hash settingsCanon
  have hsort : sortVals (JVal.jobj es1) = sortVals (JVal.jobj es2) := by
    simp only [sortVals, sortObjVals_eq_map]
    rw [sortEntries_eq_of_perm (es1.map (fun e => (e.1, sortVals e.2)))
      (es2.map (fun e => (e.1, sortVals e.2))) (hperm.map _) ?_]
    rw [List.map_map]
    exact hnd
  rw [hsort]

/-- Sensitivity of the settings digest: replacing the value at any key
by a canonically different value changes the serialization, hence the
digest for any collision-free hash. -/
theorem settings_hash_update_ne (hash : String → String)
    (hinj : Function.Injective hash) (es : List (String × JVal)) (k : String)
    (v v' : JVal) (hnd : (es.map Prod.fst).Nodup) (hmem : (k, v) ∈ es)
    (hne : sortVals v' ≠ sortVals v) :
    settings_hash hash (updateKey es k v') ≠ settings_hash hash es := by
  intro heq
  have hcanon : settingsCanon (updateKey es k v') = settingsCanon es := hinj heq
  have hsort := settingsCanon_inj _ _ hcanon
  simp only [sortVals] at hsort
  have hents : sortEntries (sortVals.sortObjVals (updateKey es k v')) =
      sortEntries (sortVals.sortObjVals es) := by
    injection hsort
  have hperm : List.Perm (sortVals.sortObjVals (updateKey es k v'))
      (sortVals.sortObjVals es) :=
    ((sortEntries_perm _).symm.trans (hents ▸ sortEntries_perm _))
  have hm1 : (k, sortVals v') ∈ sortVals.sortObjVals (updateKey es k v') := by
    rw [sortObjVals_eq_map, List.mem_map]
    exact ⟨(k, v'), mem_updateKey es k v' (k, v) hmem rfl, rfl⟩
  have hm2 := hperm.mem_iff.mp hm1
  rw [sortObjVals_eq_map, List.mem_map] at hm2
  obtain ⟨w, hw, hweq⟩ := hm2
  have hw1 : w.1 = k := congrArg Prod.fst hweq
  have hw2 : sortVals w.2 = sortVals v' := congrArg Prod.snd hweq
  have hwv : w = (k, v) := keys_nodup_unique es hnd w (k, v) hw hmem (by rw [hw1])
  rw [hwv] at hw2
  exact hne hw2.symm

/-! ## Behavior of the pipeline on hits and misses -/

theorem read_text_write_text (fs : FS) (p out : String) :
    _read_text (_write_text fs p (some out)) p = out := by
  unfold _read_text _write_text FS.write FS.lookup
  simp [List.lookup]

theorem get_or_compute_miss (hash : String → String) (fs : FS) (sid name : String)
    (d : List (String × JVal)) (f : Unit → String)
    (hmiss : _read_text fs (sid ++ "/" ++ (name ++ ":" ++ settings_hash hash d)) = "") :
    get_or_compute hash fs sid name (.valid d) f =
      (Except.ok (f ()),
       _write_text fs (sid ++ "/" ++ (name ++ ":" ++ settings_hash hash d)) (some (f ())),
       1) := by
  unfold get_or_compute
  simp only [hmiss]
  rw [if_neg (by simp)]

theorem get_or_compute_hit (hash : String → String) (fs : FS) (sid name : String)
    (d : List (String × JVal)) (f : Unit → String)
    (hhit : _read_text fs (sid ++ "/" ++ (name ++ ":" ++ settings_hash hash d)) ≠ "") :
    get_or_compute hash fs sid name (.valid d) f =
      (Except.ok (_read_text fs (sid ++ "/" ++ (name ++ ":" ++ settings_hash hash d))),
       fs, 0) := by
  unfold get_or_compute
  simp only []
  rw [if_pos hhit]

/-! ## Ambient state and determinism of the identity resolver

Lines 21–50 of src/Main.py build a module-level environment (model
names, cache/upload directory names, the API key) from environment
variables.  `_slug` (lines 81–83) and `_session_id` (lines 85–87)
reference none of it: their bodies mention only their arguments, `re`
and string methods.  Running them "under" an ambient environment is
therefore a constant function of that environment, which is exactly
the no-ambient-state determinism the specification demands. -/

/-- The module-level configuration of src/Main.py lines 21–50. -/
structure Env where
  openai_model : String
  embed_mode : String
  whisper_model : String
  upload_dir : String
  cache_dir : String
  openai_api_key : String

/-- `_slug` as run in a process with ambient environment `e`; the
source function reads no global, so `e` is unused. -/
def _slug_under (e : Env) (s : String) : String := _slug s

/-- `_session_id` as run in a process with ambient environment `e`. -/
def _session_id_under (e : Env) (title : String) (mdate : PyDate) (doc_hash : String) :
    String :=
  _session_id title mdate doc_hash

/-! ## The claims -/

/-- C1 (amended): for a fixed (session id, artifact name, settings)
triple whose key is initially absent and whose external computation
returns a non-empty output, calling the memoized derivation pipeline
twice invokes `compute_fn` exactly once — the first call computes and
persists (invocation count 1), the second call is a cache hit
(invocation count 0) returning output byte-identical to the first.
The claim as stated fails for an empty computed output, which the
pipeline of specification §4.4 treats as a cache miss
(`claim_C1_counterexample`). -/
theorem claim_C1 (hash : String → String) (fs : FS) (sid name : String)
    (d : List (String × JVal)) (f : Unit → String)
    (hmiss : _read_text fs (sid ++ "/" ++ (name ++ ":" ++ settings_hash hash d)) = "")
    (hne : f () ≠ "") :
    get_or_compute hash fs sid name (.valid d) f =
      (Except.ok (f ()),
       _write_text fs (sid ++ "/" ++ (name ++ ":" ++ settings_hash hash d)) (some (f ())),
       1) ∧
    get_or_compute hash
        (_write_text fs (sid ++ "/" ++ (name ++ ":" ++ settings_hash hash d)) (some (f ())))
        sid name (.valid d) f =
      (Except.ok (f ()),
       _write_text fs (sid ++ "/" ++ (name ++ ":" ++ settings_hash hash d)) (some (f ())),
       0) := by
  refine ⟨get_or_compute_miss hash fs sid name d f hmiss, ?_⟩
  have hr := read_text_write_text fs
    (sid ++ "/" ++ (name ++ ":" ++ settings_hash hash d)) (f ())
  rw [get_or_compute_hit hash _ sid name d f (by rw [hr]; exact hne), hr]

/-- C1 (counterexample): with an external computation that returns the
empty string, the pipeline of specification §4.4 misses the cache on
both calls — `compute_fn` is invoked twice across the artifact's
lifetime, not exactly once as claimed. -/
theorem claim_C1_counterexample :
    (get_or_compute id [] "s" "a" (PyConfig.valid []) (fun _ => "")).2.2 +
      (get_or_compute id
        (get_or_compute id [] "s" "a" (PyConfig.valid []) (fun _ => "")).2.1
        "s" "a" (PyConfig.valid []) (fun _ => "")).2.2 = 2 ∧
    ¬ ((get_or_compute id [] "s" "a" (PyConfig.valid []) (fun _ => "")).2.2 +
      (get_or_compute id
        (get_or_compute id [] "s" "a" (PyConfig.valid []) (fun _ => "")).2.1
        "s" "a" (PyConfig.valid []) (fun _ => "")).2.2 = 1) := by
  constructor
  · rfl
  · intro h
    exact absurd h (by decide)

/-- C1 (witness). -/
theorem claim_C1_witness :
    _read_text [] ("s" ++ "/" ++ ("a" ++ ":" ++ settings_hash id [])) = "" ∧
    (fun _ : Unit => "text") () ≠ "" ∧
    get_or_compute id [] "s" "a" (.valid []) (fun _ => "text") =
      (Except.ok "text",
       _write_text [] ("s" ++ "/" ++ ("a" ++ ":" ++ settings_hash id [])) (some "text"),
       1) := by
  refine ⟨rfl, by decide, ?_⟩
  exact (claim_C1 id [] "s" "a" [] (fun _ => "text") rfl (by decide)).1

/-- C2: `_slug` lowercases, trims, collapses every run of non-word
characters into a single hyphen and strips leading and trailing
hyphens, returning the fixed default token `"session"` when the result
is empty — it agrees with the specification's `slugify` on every
string; in particular `_slug "Q3 Planning!!"` and
`_slug "q3   planning"` are both `"q3-planning"`, and every empty or
all-punctuation title maps to `"session"`. -/
theorem claim_C2 :
    (∀ s : String, _slug s = slugifySpec s) ∧
    _slug "Q3 Planning!!" = "q3-planning" ∧
    _slug "q3   planning" = "q3-planning" ∧
    (∀ s : String, (∀ c ∈ s.data, isWordChar c = false) → _slug s = "session") :=
  ⟨slug_eq_slugifySpec, by decide, by decide, slug_of_all_nonword⟩

/-- C2 (witness). -/
theorem claim_C2_witness :
    (∀ c ∈ ("?!?" : String).data, isWordChar c = false) ∧ _slug "?!?" = "session" :=
  ⟨by decide, claim_C2.2.2.2 "?!?" (by decide)⟩

/-- C3: `_session_id` returns exactly the concatenation
`slugify(title) + "-" + isoformat(meeting_date) + "-" +
content_hash[:8]`. -/
theorem claim_C3 (title : String) (mdate : PyDate) (content_hash : String) :
    _session_id title mdate content_hash = resolve_session_id_spec title mdate content_hash := by
  unfold _session_id resolve_session_id_spec
  rw [slug_eq_slugifySpec]

/-- C4: the settings digest is order-independent — two configurations
with the same key-value pairs but different in-memory field order hash
identically, because the serialization sorts keys — and sensitive:
replacing the value at any key by a (canonically) different value
changes the serialization and hence the digest for any collision-free
hash function. -/
theorem claim_C4 (hash : String → String) :
    (∀ es1 es2 : List (String × JVal), List.Perm es1 es2 → (es1.map Prod.fst).Nodup →
      settings_hash hash es1 = settings_hash hash es2) ∧
    (Function.Injective hash →
      ∀ (es : List (String × JVal)) (k : String) (v v' : JVal),
        (es.map Prod.fst).Nodup → (k, v) ∈ es → sortVals v' ≠ sortVals v →
        settings_hash hash (updateKey es k v') ≠ settings_hash hash es) :=
  ⟨fun es1 es2 hp hnd => settings_hash_perm hash es1 es2 hp hnd,
   fun hinj es k v v' hnd hmem hne =>
     settings_hash_update_ne hash hinj es k v v' hnd hmem hne⟩

/-- C4 (witness). -/
theorem claim_C4_witness :
    settings_hash id [("chunk", JVal.jnum 3), ("model", JVal.jstr "gpt")] =
      settings_hash id [("model", JVal.jstr "gpt"), ("chunk", JVal.jnum 3)] ∧
    settings_hash id
        (updateKey [("model", JVal.jstr "gpt"), ("chunk", JVal.jnum 3)] "model"
          (JVal.jstr "mini")) ≠
      settings_hash id [("model", JVal.jstr "gpt"), ("chunk", JVal.jnum 3)] := by
  constructor
  · exact (claim_C4 id).1 _ _
      (List.Perm.swap ("model", JVal.jstr "gpt") ("chunk", JVal.jnum 3) [])
      (by decide)
  · refine (claim_C4 id).2 (fun a b h => h) _ "model" (JVal.jstr "gpt") (JVal.jstr "mini")
      (by decide) (List.mem_cons_self _ _) ?_
    intro h
    injection h with h2
    exact absurd h2 (by decide)

/-- C5: for a path with no file, `_read_text` returns the empty string
and `_read_json` returns the empty mapping; neither raises. -/
theorem claim_C5 (fs : FS) (path : String) (h : fs.lookup path = none) :
    _read_text fs path = "" ∧ _read_json fs path = Except.ok (JVal.jobj []) := by
  unfold _read_text _read_json
  rw [h]
  exact ⟨rfl, rfl⟩

/-- C5 (witness). -/
theorem claim_C5_witness :
    FS.lookup [] "nonexistent" = none ∧
    (_read_text [] "nonexistent" = "" ∧
      _read_json [] "nonexistent" = Except.ok (JVal.jobj [])) :=
  ⟨rfl, claim_C5 [] "nonexistent" rfl⟩

/-- C6 (amended): reading a record file whose content is malformed
raises the JSON decoder's error (`json.JSONDecodeError`) — it is never
silently treated as a cache miss returning an empty mapping — but the
error kind is the decoder's, not a distinct `CacheCorruption` kind: no
such kind exists in src/Main.py (`claim_C6_counterexample`). -/
theorem claim_C6 (fs : FS) (path content : String)
    (hfile : fs.lookup path = some content) (hbad : json_parse content = none) :
    _read_json fs path = Except.error ReadErr.jsonDecodeError ∧
    ∀ v : JVal, _read_json fs path ≠ Except.ok v := by
  have h : _read_json fs path = Except.error ReadErr.jsonDecodeError := by
    unfold _read_json
    rw [hfile]
    simp only [hbad]
  refine ⟨h, ?_⟩
  intro v hv
  rw [h] at hv
  exact Except.noConfusion hv

/-- C6 (counterexample): a partially-written record raises the JSON
decoder's error kind, not `CacheCorruption`. -/
theorem claim_C6_counterexample :
    _read_json (FS.write [] "cache/s/rec" "\x7b\"text\": ") "cache/s/rec" =
      Except.error ReadErr.jsonDecodeError ∧
    _read_json (FS.write [] "cache/s/rec" "\x7b\"text\": ") "cache/s/rec" ≠
      Except.error ReadErr.cacheCorruption := by
  constructor
  · rfl
  · intro h
    injection h with h2
    exact ReadErr.noConfusion h2

/-- C6 (witness). -/
theorem claim_C6_witness :
    FS.lookup (FS.write [] "p" "\x7b") "p" = some "\x7b" ∧
    json_parse "\x7b" = none ∧
    _read_json (FS.write [] "p" "\x7b") "p" = Except.error ReadErr.jsonDecodeError := by
  refine ⟨rfl, rfl, ?_⟩
  exact (claim_C6 (FS.write [] "p" "\x7b") "p" "\x7b" rfl rfl).1

/-- C7: writing a record and reading it back returns the record
exactly, for every session path and every JSON value; in particular
`{"text": "hi"}` round-trips. -/
theorem claim_C7 :
    (∀ (fs : FS) (path : String) (r : JVal),
      _read_json (_write_json fs path r) path = Except.ok r) ∧
    _read_json (_write_json [] "s/summary" (JVal.jobj [("text", JVal.jstr "hi")]))
        "s/summary" = Except.ok (JVal.jobj [("text", JVal.jstr "hi")]) :=
  ⟨read_json_write_json, by rfl⟩

/-- C8: a missing or invalid (non-serializable) settings structure
makes the pipeline fail fast with `ConfigurationError`; the store is
untouched and `compute_fn` is never invoked (invocation count 0). -/
theorem claim_C8 (hash : String → String) (fs : FS) (sid name : String)
    (f : Unit → String) :
    get_or_compute hash fs sid name PyConfig.invalid f =
      (Except.error PipeErr.configurationError, fs, 0) := rfl

/-- C9: the session identity resolver is deterministic and reads no
ambient state: running `_slug`/`_session_id` under any two process
environments yields identical results, and the spec's concrete example
is stable. -/
theorem claim_C9 :
    (∀ (e1 e2 : Env) (t : String) (d : PyDate) (h : String),
      _session_id_under e1 t d h = _session_id_under e2 t d h) ∧
    (∀ (e1 e2 : Env) (s : String), _slug_under e1 s = _slug_under e2 s) ∧
    _session_id "Standup" ⟨2024, 1, 5⟩
        "ba7816bf8f01cfea414140de5dae2223b00361a396177a9cb410ff61f20015ad" =
      "standup-2024-01-05-ba7816bf" :=
  ⟨fun _ _ _ _ _ => rfl, fun _ _ _ => rfl, by decide⟩

/-- C10: an empty artifact is indistinguishable from a missing one —
`_write_text` coerces `None` (and `""`) to the empty string, and
`_read_text` returns the empty string both after such a write and for
a path never written. -/
theorem claim_C10 :
    (∀ (fs : FS) (p : String),
      _read_text (_write_text fs p none) p = "" ∧
      _read_text (_write_text fs p (some "")) p = "") ∧
    (∀ (fs : FS) (p : String), fs.lookup p = none → _read_text fs p = "") := by
  constructor
  · intro fs p
    constructor <;>
      (unfold _read_text _write_text FS.write FS.lookup; simp [List.lookup])
  · intro fs p h
    unfold _read_text
    rw [h]

/-- C10 (witness). -/
theorem claim_C10_witness :
    (_read_text (_write_text [] "p" none) "p" = "" ∧
      _read_text (_write_text [] "p" (some "")) "p" = "") ∧
    (FS.lookup [] "q" = none ∧ _read_text [] "q" = "") :=
  ⟨claim_C10.1 [] "p", rfl, claim_C10.2 [] "q" rfl⟩

end MeetEase
